import Mathlib

/-!
Shallow embedding of the PATCH-diff generation engine of the `albert-python`
client library, together with theorems settling the frozen claims about it.

The embedding follows the Python source:
* `albert/collections/base.py` — the generic patch builder and metadata differ;
* `albert/collections/lots.py` — the lot specialization (decimal deltas,
  storage-location normalization, `adjust`);
* `albert/collections/entity_types.py` — the entity-type specialization;
* `albert/utils/_patch.py` — parameter / data-column / enum sub-resource diffs.

Python `None` is `Option.none`; code paths that raise (`AttributeError`,
`decimal.InvalidOperation`, `TypeError`, …) return `Except.error ()`.
-/

namespace Albert

/-- Decimal number `m * 10 ^ (-e)`.  This models both Python `Decimal` values
and a `float` as seen through `Decimal(str(x))` (i.e. through its shortest
round-tripping decimal numeral; reprs of extreme magnitude that Python prints
in scientific notation still denote the same mantissa/exponent pair). -/
structure DecNum where
  m : Int
  e : Nat
deriving DecidableEq

/-- Value-level equality of decimals, mirroring Python float/Decimal `==`
(`10.0 == 10` even though the numerals differ). -/
def decValEq (a b : DecNum) : Bool :=
  a.m * (10 : Int) ^ b.e == b.m * (10 : Int) ^ a.e

/-- Subtraction of decimals, aligning exponents exactly as Python `Decimal`
subtraction does (result exponent is the finer of the two). -/
def decSub (a b : DecNum) : DecNum :=
  let e := max a.e b.e
  ⟨a.m * (10 : Int) ^ (e - a.e) - b.m * (10 : Int) ^ (e - b.e), e⟩

/-- Round `m / 10^d` half-to-even, the default `decimal` rounding mode. -/
def roundHalfEven (m : Int) (d : Nat) : Int :=
  let p : Int := (10 : Int) ^ d
  let q := Int.fdiv m p
  let r := m - q * p
  if 2 * r < p then q
  else if 2 * r > p then q + 1
  else if q % 2 == 0 then q else q + 1

/-- The rounding step of `delta.quantize(DECIMAL_DELTA_QUANTIZE)` from
`collections/lots.py`: fix the exponent to 14 decimal places
(`DECIMAL_DELTA_QUANTIZE = Decimal("0.00000000000000")`).  The default
context's 28-digit coefficient-width check, under which `quantize` raises
`InvalidOperation`, is modelled in `pyLotDelta` below; `adjust`'s statements
only ever quantize values far inside that width. -/
def quantize14 (d : DecNum) : DecNum :=
  if d.e ≤ 14 then ⟨d.m * (10 : Int) ^ (14 - d.e), 14⟩
  else ⟨roundHalfEven d.m (d.e - 14), 14⟩

/-- Fixed-point rendering of a decimal: Python `format(d, "f")`, which never
uses scientific notation whatever the exponent. -/
def decRender (d : DecNum) : String :=
  let digits := (toString d.m.natAbs).data
  let padded := List.replicate (d.e + 1 - digits.length) ('0') ++ digits
  let k := padded.length - d.e
  let sign := if d.m < 0 then ("-") else ("")
  if d.e = 0 then sign ++ String.mk padded
  else sign ++ String.mk (padded.take k) ++ ("." ++ String.mk (padded.drop k))

/-- Number of decimal digits of `|n|` (one digit for zero). -/
def decDigits (n : Int) : Nat := (toString n.natAbs).length

/-- Cancel factors of ten of the mantissa against the fractional exponent
(`⟨1500, 2⟩ → ⟨15, 0⟩`): any numeral denoting a float's value reduces to the
float's shortest-repr digit placement. -/
def decStrip : Int → Nat → DecNum
  | m, 0 => ⟨m, 0⟩
  | m, e + 1 => if m % 10 == 0 then decStrip (m / 10) e else ⟨m, e + 1⟩

/-- Strip every factor of ten from an integer, counting them (the fuel is
its digit count, enough for all of them). -/
def stripTensAux : Nat → Int → Int × Nat
  | 0, m => (m, 0)
  | fuel + 1, m =>
      if m != 0 && m % 10 == 0 then
        let p := stripTensAux fuel (m / 10)
        (p.1, p.2 + 1)
      else (m, 0)

def stripTens (m : Int) : Int × Nat := stripTensAux (decDigits m) m

/-- Decimal exponent (position of the leading digit) of a nonzero value. -/
def decExp10 (d : DecNum) : Int :=
  let s := decStrip d.m d.e
  let p := stripTens s.m
  (decDigits p.1 : Int) - 1 + (p.2 : Int) - (s.e : Int)

/-- Left-pad a numeral to two characters (`repr` of a float always prints at
least two exponent digits: `1e-05`, `1e+16`). -/
def pad2 (s : String) : String := if s.length < 2 then ("0") ++ s else s

/-- Python `str()` (= `repr`) of a float given by its shortest decimal
numeral: fixed-point with at least one fractional digit while the decimal
exponent lies in `[-4, 16)`, scientific notation outside that range
(`str(1e-05) = '1e-05'`, `str(1e16) = '1e+16'`, `str(10.0) = '10.0'`). -/
def pyFloatStr (d : DecNum) : String :=
  if d.m = 0 then ("0.0")
  else
    let s := decStrip d.m d.e
    let dx := decExp10 d
    if dx < -4 ∨ 16 ≤ dx then
      let p := stripTens s.m
      let ds := toString p.1.natAbs
      let mant := if ds.length == 1 then ds
        else (ds.take 1) ++ (".") ++ (ds.drop 1)
      let ex := if dx < 0 then ("-") ++ pad2 (toString (-dx).toNat)
        else ("+") ++ pad2 (toString dx.toNat)
      (if d.m < 0 then ("-") else ("")) ++ mant ++ ("e") ++ ex
    else if s.e = 0 then decRender ⟨s.m * 10, 1⟩
    else decRender ⟨s.m, s.e⟩

/-- The exponent of `Decimal(str(x))`: minus the number of printed
fractional digits in the plain range (`Decimal('10.0')` has exponent -1),
the scientific exponent of the stripped mantissa otherwise
(`Decimal('1.5e-05')` has exponent -6). -/
def pyDecExp (d : DecNum) : Int :=
  if d.m = 0 then -1
  else
    let s := decStrip d.m d.e
    let dx := decExp10 d
    if dx < -4 ∨ 16 ≤ dx then (stripTens s.m).2 - (s.e : Int)
    else -(max s.e 1 : Int)

/-- The coefficient of `Decimal(str(x))`: exactly the digits `str` prints. -/
def pyDecCoeff (d : DecNum) : Int :=
  if d.m = 0 then 0
  else
    let s := decStrip d.m d.e
    let dx := decExp10 d
    if dx < -4 ∨ 16 ≤ dx then (stripTens s.m).1
    else if s.e = 0 then s.m * 10
    else s.m

/-- The delta computation of `_generate_lots_patch_payload`
(`collections/lots.py`, lines 307–310) under the default decimal context
(precision 28, `ROUND_HALF_EVEN`): `Decimal(str(u)) - Decimal(str(e))`
subtracts exactly at the finer parsed exponent and rounds to 28 significant
digits when the exact difference is longer; `.quantize(DECIMAL_DELTA_QUANTIZE)`
then fixes the exponent to 14 decimal places and raises `InvalidOperation`
when the quantized coefficient would exceed 28 digits.  The returned flag is
the sign of the exact difference, which decimal arithmetic keeps even when
the magnitude quantizes to zero (`Decimal` negative zero). -/
def pyLotDelta (u e0 : DecNum) : Except Unit (Bool × DecNum) :=
  let xu := pyDecExp u
  let xe := pyDecExp e0
  let em := min xu xe
  let c := pyDecCoeff u * (10 : Int) ^ (xu - em).toNat -
           pyDecCoeff e0 * (10 : Int) ^ (xe - em).toNat
  let sub : Int × Int :=
    if 28 < decDigits c then
      (roundHalfEven c (decDigits c - 28), em + (decDigits c - 28 : Int))
    else (c, em)
  let shift := sub.2 + 14
  let k := if 0 ≤ shift then sub.1 * (10 : Int) ^ shift.toNat
           else roundHalfEven sub.1 (-shift).toNat
  if 28 < decDigits k then .error ()
  else .ok (decide (c < 0), ⟨k, 14⟩)

/-- `format(d, "f")` of a signed decimal: the sign flag is the sign decimal
arithmetic keeps on the value (a tiny negative delta quantizes to a negative
zero, which `format` prints as `-0.00000000000000`). -/
def pyDecRender (neg : Bool) (d : DecNum) : String :=
  (if neg && d.m == 0 then ("-") else ("")) ++ decRender d

/-- Patch operations.  Modelled from the spec: the `PatchOperation` enum from
`core/shared/models/patch.py` (not under `src/`), whose members serialize as
`"add"`, `"update"`, `"delete"`. -/
inductive PatchOperation where
  | add
  | update
  | delete
deriving DecidableEq

/-- Wire attribute of a patch datum.  The metadata differ namespaces its
attributes as `Metadata.<key>`; we keep the two kinds apart structurally
(no alias used by the code collides with the `Metadata.` namespace). -/
inductive Attr where
  | plain (s : String)
  | meta (key : String)
deriving DecidableEq

/-- Wire name of an attribute (what the Python code stores as a string). -/
def Attr.wireName : Attr → String
  | .plain s => s
  | .meta k => ("Metadata.") ++ k

/-- Element of a Python list stored in a metadata value: either a linked
entity exposing an `.id`, or any other object (no `.id`; accessing it
raises). -/
inductive MetaElem where
  | ent (id : String)
  | raw (tag : String)
deriving DecidableEq

/-- Runtime shape of a value of a metadata mapping (`dict[str, MetadataItem]`
plus the unmodeled shapes the claims quantify over): scalar string / int /
float, a single id-bearing linked entity, a list, an explicit `None`, or any
other object without an `.id`. -/
inductive MetaValue where
  | str (s : String)
  | int (n : Int)
  | flt (d : DecNum)
  | ent (id : String)
  | list (l : List MetaElem)
  | mvNone
  | other (tag : String)
deriving DecidableEq

/-- Value carried by a patch datum: scalars, a linked-entity object, a Python
list of objects, a list of id strings, a Python set of id strings, a bare
dict, booleans, and the entity-type nested objects. -/
inductive PValue where
  | pStr (s : String)
  | pInt (n : Int)
  | pFlt (d : DecNum)
  | pBool (b : Bool)
  | pEnt (id : String)
  | pEntList (l : List MetaElem)
  | pStrList (l : List String)
  | pStrSet (s : Finset String)
  | pDict (m : List (String × String))
  | pSFV (notes tags dueDate : Bool)
  | pSQS (dat prg : Option String)
deriving DecidableEq

/-- One atomic patch operation.  Modelled from the spec: `PatchDatum` from
`core/shared/models/patch.py` (not under `src/`), `{attribute, operation,
old_value?, new_value?}` with both value fields defaulting to `None`. -/
structure PatchDatum where
  attr : Attr
  operation : PatchOperation
  old_value : Option PValue := Option.none
  new_value : Option PValue := Option.none
deriving DecidableEq

/-- Ordered sequence of patch data.  Modelled from the spec: `PatchPayload`
from `core/shared/models/patch.py` (not under `src/`). -/
structure PatchPayload where
  data : List PatchDatum
deriving DecidableEq

/-- Python `x.id` on a metadata value: succeeds only on a linked entity. -/
def MetaValue.getId : MetaValue → Except Unit String
  | .ent i => .ok i
  | _ => .error ()

/-- Python `x.id` on a list element. -/
def MetaElem.getId : MetaElem → Except Unit String
  | .ent i => .ok i
  | .raw _ => .error ()

/-- Total id extraction on list elements (used only to state theorems). -/
def MetaElem.idOf : MetaElem → Option String
  | .ent i => Option.some i
  | .raw _ => Option.none

/-- Injection of a metadata value into a datum value slot (Python just stores
the object; an explicit `None` is the absent value). -/
def MetaValue.toP : MetaValue → Option PValue
  | .str s => Option.some (.pStr s)
  | .int n => Option.some (.pInt n)
  | .flt d => Option.some (.pFlt d)
  | .ent i => Option.some (.pEnt i)
  | .list l => Option.some (.pEntList l)
  | .mvNone => Option.none
  | .other t => Option.some (.pStr t)

/-- Python `==` on list elements (entities compare by their fields, here the
id; other objects by identity tag). -/
def elemEq : MetaElem → MetaElem → Bool
  | .ent i, .ent j => i == j
  | .raw s, .raw t => s == t
  | _, _ => false

/-- Python `==` on metadata values: value-based on numbers (`1 == 1.0`),
elementwise on lists, structural elsewhere. -/
def mvEq : MetaValue → MetaValue → Bool
  | .str s, .str t => s == t
  | .int n, .int k => n == k
  | .flt a, .flt b => decValEq a b
  | .int n, .flt b => decValEq ⟨n, 0⟩ b
  | .flt a, .int k => decValEq a ⟨k, 0⟩
  | .ent i, .ent j => i == j
  | .list l, .list r => l.length == r.length && (l.zip r).all fun p => elemEq p.1 p.2
  | .mvNone, .mvNone => true
  | .other s, .other t => s == t
  | _, _ => false

/-- Python `==` on datum-slot values (the generic builder compares attribute
values with `!=`): value-based on numbers, structural elsewhere. -/
def pvEq : PValue → PValue → Bool
  | .pStr s, .pStr t => s == t
  | .pInt n, .pInt k => n == k
  | .pFlt a, .pFlt b => decValEq a b
  | .pInt n, .pFlt b => decValEq ⟨n, 0⟩ b
  | .pFlt a, .pInt k => decValEq a ⟨k, 0⟩
  | .pBool a, .pBool b => a == b
  | .pEnt i, .pEnt j => i == j
  | .pEntList l, .pEntList r =>
      l.length == r.length && (l.zip r).all fun p => elemEq p.1 p.2
  | .pStrList l, .pStrList r => l == r
  | .pStrSet a, .pStrSet b => a == b
  | .pDict a, .pDict b => a == b
  | .pSFV a b c, .pSFV x y z => a == x && b == y && c == z
  | .pSQS a b, .pSQS x y => a == x && b == y
  | _, _ => false

/-- Python `value == []` or `value == {}` (an empty set is neither). -/
def pvEmptyContainer : PValue → Bool
  | .pEntList l => l.isEmpty
  | .pStrList l => l.isEmpty
  | .pDict m => m.isEmpty
  | _ => false

/-- Python truthiness of a datum-slot value. -/
def pvFalsy : PValue → Bool
  | .pStr s => s.isEmpty
  | .pInt n => n == 0
  | .pFlt d => d.m == 0
  | .pBool b => !b
  | .pEnt _ => false
  | .pEntList l => l.isEmpty
  | .pStrList l => l.isEmpty
  | .pStrSet s => s == (∅ : Finset String)
  | .pDict m => m.isEmpty
  | .pSFV _ _ _ => false
  | .pSQS _ _ => false

/-- Python `str(...)` of a datum-slot value (only scalars are ever
stringified by the claims' code paths; object renderings are opaque). -/
def pvStr : PValue → String
  | .pStr s => s
  | .pInt n => toString n
  | .pFlt d => pyFloatStr d
  | .pBool b => if b then ("True") else ("False")
  | .pEnt i => ("entity:") ++ i
  | .pEntList _ => ("list:...")
  | .pStrList _ => ("list:...")
  | .pStrSet _ => ("set:...")
  | .pDict _ => ("dict:...")
  | .pSFV _ _ _ => ("sfv:...")
  | .pSQS _ _ => ("sqs:...")

/-- Python `str(x)` where `x` may be `None` (stringifies to `"None"`). -/
def pvStrOpt : Option PValue → String
  | Option.none => ("None")
  | Option.some v => pvStr v

/-- Python `==` lifted to optional datum-slot values. -/
def optPvEq : Option PValue → Option PValue → Bool
  | Option.none, Option.none => true
  | Option.some a, Option.some b => pvEq a b
  | _, _ => false

/-- Lookup in an association list modelling a Python `dict` (first match,
like iteration over unique keys). -/
def alookup {α : Type} (m : List (String × α)) (k : String) : Option α :=
  (m.find? fun p => p.1 == k).map Prod.snd

/-- Sequentially run `f` over a list, concatenating the produced lists, and
propagating the first raised exception — the shape of every `for` loop in the
diff generators that appends to an accumulator. -/
def exBind {α β : Type} (l : List α) (f : α → Except Unit (List β)) :
    Except Unit (List β) :=
  match l with
  | [] => .ok []
  | a :: r => do
      let x ← f a
      let y ← exBind r f
      .ok (x ++ y)

instance {ε α : Type} [DecidableEq ε] [DecidableEq α] :
    DecidableEq (Except ε α) := fun x y =>
  match x, y with
  | .error e, .error f =>
      if h : e = f then isTrue (by rw [h])
      else isFalse (by intro hh; cases hh; exact h rfl)
  | .ok a, .ok b =>
      if h : a = b then isTrue (by rw [h])
      else isFalse (by intro hh; cases hh; exact h rfl)
  | .error _, .ok _ => isFalse (by intro hh; cases hh)
  | .ok _, .error _ => isFalse (by intro hh; cases hh)

/-- Sequentially map a fallible function over a list (a Python list
comprehension that may raise). -/
def exMapM {α β : Type} (l : List α) (f : α → Except Unit β) :
    Except Unit (List β) :=
  match l with
  | [] => .ok []
  | a :: r => do
      let b ← f a
      let bs ← exMapM r f
      .ok (b :: bs)

/-- Delete branch of the existing-key pass of `_generate_metadata_diff`
(`collections/base.py`, lines 36–63): the shaping dispatches on the
*existing* value's type (scalar passthrough, cardinality-shaped id list,
entity id; an empty list is skipped; anything else has `.id` accessed and
raises unless it is an entity). -/
def metaDeleteData (k : String) (v : MetaValue) :
    Except Unit (List PatchDatum) :=
  match v with
  | .str _ | .int _ | .flt _ =>
      .ok [⟨.meta k, .delete, v.toP, Option.none⟩]
  | .list l => do
      let ids ← exMapM l MetaElem.getId
      match ids with
      | [] => .ok []
      | [i] => .ok [⟨.meta k, .delete, Option.some (.pStr i), Option.none⟩]
      | _ => .ok [⟨.meta k, .delete, Option.some (.pStrList ids), Option.none⟩]
  | _ => do
      let i ← v.getId
      .ok [⟨.meta k, .delete, Option.some (.pStr i), Option.none⟩]

/-- The coercion of an existing metadata value to its ids in the
changed-list branch (`collections/base.py`, line 75): a list yields its
elements' ids, anything else has its single `.id` taken (raising unless it
is an entity). -/
def metaExistingIds (v : MetaValue) : Except Unit (List String) :=
  match v with
  | .list l => exMapM l MetaElem.getId
  | _ => do
      let i ← v.getId
      .ok [i]

/-- The changed-key list branch (`collections/base.py`, lines 74–104):
set-difference based ADD / DELETE / UPDATE decision.  Python's sets of ids
are modelled as deduplicated lists (iteration order over a Python set is
unspecified; the first-occurrence order is the canonical choice), and the
set values carried by the UPDATE datum as their `Finset` of elements. -/
def metaListBranch (k : String) (v : MetaValue) (l' : List MetaElem) :
    Except Unit (List PatchDatum) := do
  let eIds ← metaExistingIds v
  let ids' ← exMapM l' MetaElem.getId
  let existingId := eIds.dedup
  let updatedId := ids'.dedup
  let toAdd := updatedId.filter fun i => !(existingId.contains i)
  let toRemove := existingId.filter fun i => !(updatedId.contains i)
  if (toAdd ++ toRemove).isEmpty then .ok []
  else if !toAdd.isEmpty && !toRemove.isEmpty then
    .ok [⟨.meta k, .update, Option.some (.pStrSet existingId.toFinset),
          Option.some (.pStrSet updatedId.toFinset)⟩]
  else if !toAdd.isEmpty then
    .ok [⟨.meta k, .add, Option.none, Option.some (.pStrList toAdd)⟩]
  else
    .ok [⟨.meta k, .delete, Option.some (.pStrList toRemove), Option.none⟩]

/-- Type dispatch of the changed-key branch on the *updated* value
(`collections/base.py`, lines 65–114). -/
def metaChangedDispatch (k : String) (v v' : MetaValue) :
    Except Unit (List PatchDatum) :=
  match v' with
  | .str _ | .int _ | .flt _ =>
      .ok [⟨.meta k, .update, v.toP, v'.toP⟩]
  | .list l' => metaListBranch k v l'
  | _ => do
      let i ← v.getId
      let j ← v'.getId
      .ok [⟨.meta k, .update, Option.some (.pStr i), Option.some (.pStr j)⟩]

/-- Changed-key branch of the existing-key pass of `_generate_metadata_diff`
(`collections/base.py`, lines 64–114): skip when the values compare equal,
otherwise dispatch on the updated value's type. -/
def metaChangedData (k : String) (v v' : MetaValue) :
    Except Unit (List PatchDatum) :=
  if mvEq v v' then .ok []
  else metaChangedDispatch k v v'

/-- Per-key body of the existing-key pass of `_generate_metadata_diff`
(`collections/base.py`, lines 33–114): delete handling when the key is gone
or maps to `None` in `updated`, otherwise the changed-value handling. -/
def handleExisting (up : List (String × MetaValue)) (k : String)
    (v : MetaValue) : Except Unit (List PatchDatum) :=
  match alookup up k with
  | Option.none => metaDeleteData k v
  | Option.some .mvNone => metaDeleteData k v
  | Option.some v' => metaChangedData k v v'

/-- Per-key body of the new-key pass of `_generate_metadata_diff`
(`collections/base.py`, lines 115–144), dispatching on the new value's
type. -/
def handleNew (k : String) (v : MetaValue) : Except Unit (List PatchDatum) :=
  match v with
  | .str _ | .int _ | .flt _ =>
      .ok [⟨.meta k, .add, Option.none, v.toP⟩]
  | .list l => do
      let ids ← exMapM l MetaElem.getId
      match ids with
      | [] => .ok []
      | [i] => .ok [⟨.meta k, .add, Option.none, Option.some (.pStr i)⟩]
      | _ => .ok [⟨.meta k, .add, Option.none, Option.some (.pStrList ids)⟩]
  | _ => do
      let i ← v.getId
      .ok [⟨.meta k, .add, Option.none, Option.some (.pStr i)⟩]

/-- Embedding of `BaseCollection._generate_metadata_diff`
(`collections/base.py`): existing-key pass, then new-key pass.  A `None`
mapping was already replaced by `{}` by the caller (the function's own
`None` guards are the `getD []` at the call sites). -/
def metaDiff (ex up : List (String × MetaValue)) :
    Except Unit (List PatchDatum) := do
  let p1 ← exBind ex fun p => handleExisting up p.1 p.2
  let p2 ← exBind up fun p =>
    if (alookup ex p.1).isNone then handleNew p.1 p.2 else .ok []
  .ok (p1 ++ p2)

/-- Generic resource snapshot: the non-metadata updatable attributes as an
attribute-name-indexed mapping (missing attribute reads as `None`, like
`getattr(r, a, None)`), plus the `metadata` mapping. -/
structure GRes where
  attrs : List (String × Option PValue)
  metadata : Option (List (String × MetaValue))

/-- Attribute read with `getattr`'s `None` default. -/
def getAttr (r : GRes) (a : String) : Option PValue :=
  (alookup r.attrs a).join

/-- Body of one iteration of `BaseCollection._generate_patch_payload`
(`collections/base.py`, lines 161–203): the generic add/update decision on the two (already
coerced) attribute values, using the declared serialization alias (the
None/empty-container coercion is `attrGeneric` below, the metadata
delegation is dispatched in `attrStep`). -/
def attrGenericCore (alias0 : String) (stringify : Bool) :
    Option PValue → Option PValue → List PatchDatum
  | Option.none, Option.some nv =>
      [⟨.plain alias0, .add, Option.none,
        Option.some (if stringify then .pStr (pvStr nv) else nv)⟩]
  | Option.some ov, newv =>
      if optPvEq (Option.some ov) newv then []
      else
        [⟨.plain alias0, .update,
          Option.some (if stringify then .pStr (pvStr ov) else ov),
          if stringify then Option.some (.pStr (pvStrOpt newv)) else newv⟩]
  | Option.none, Option.none => []

/-- The generic branch in full: the None/empty-container coercion of the two
read values, then the add/update decision. -/
def attrGeneric (alias0 : String) (stringify : Bool)
    (old0 new0 : Option PValue) : List PatchDatum :=
  let pair :=
    if old0.isNone && (new0.map pvEmptyContainer).getD false then
      (old0, (Option.none : Option PValue))
    else if (old0.map pvEmptyContainer).getD false && new0.isNone then
      (Option.none, new0)
    else (old0, new0)
  attrGenericCore alias0 stringify pair.1 pair.2

/-- Body of one iteration of `BaseCollection._generate_patch_payload`:
dispatch between the metadata delegation and the generic branch (the generic
branch, `attrGeneric`, never raises). -/
def attrStep (aliasOf : String → String) (genMeta stringify : Bool)
    (ex up : GRes) (a : String) : Except Unit (List PatchDatum) :=
  if a == ("metadata") && genMeta then
    let mo := ex.metadata
    let mn := up.metadata
    let pair :=
      if mo.isNone && mn == Option.some [] then (mo, (Option.none : Option (List (String × MetaValue))))
      else if mo == Option.some [] && mn.isNone then (Option.none, mn)
      else (mo, mn)
    metaDiff (pair.1.getD []) (pair.2.getD [])
  else
    .ok (attrGeneric (aliasOf a) stringify (getAttr ex a) (getAttr up a))

/-- Embedding of `BaseCollection._generate_patch_payload` as a list of data:
iterate the declared updatable attributes in order. -/
def genData (updatable : List String) (aliasOf : String → String)
    (genMeta stringify : Bool) (ex up : GRes) :
    Except Unit (List PatchDatum) :=
  exBind updatable (attrStep aliasOf genMeta stringify ex up)

/-- Embedding of `BaseCollection._generate_patch_payload`
(`collections/base.py`, lines 148–204). -/
def generatePatchPayload (updatable : List String) (aliasOf : String → String)
    (genMeta stringify : Bool) (ex up : GRes) : Except Unit PatchPayload :=
  (genData updatable aliasOf genMeta stringify ex up).map PatchPayload.mk

/-- Lot snapshot.  Modelled from the spec: the `Lot` resource model
(`resources/lots.py`, not under `src/`) as consumed by `LotCollection`:
the updatable attributes, with `inventory_on_hand` an optional float (here
its decimal numeral) and `storage_location` an optional linked entity. -/
structure Lot where
  inventory_on_hand : Option DecNum := Option.none
  initial_quantity : Option DecNum := Option.none
  cost : Option DecNum := Option.none
  storage_location : Option String := Option.none
  manufacturer_lot_number : Option String := Option.none
  expiration_date : Option String := Option.none
  status : Option String := Option.none
  pack_size : Option String := Option.none
  barcode_id : Option String := Option.none
  metadata : Option (List (String × MetaValue)) := Option.none

/-- The `LotCollection._updatable_attributes` set (`collections/lots.py`,
lines 33–44), in the order written there. -/
def lotsUpdatable : List String :=
  [("metadata"), ("storage_location"), ("manufacturer_lot_number"),
   ("expiration_date"), ("initial_quantity"), ("inventory_on_hand"),
   ("cost"), ("status"), ("pack_size"), ("barcode_id")]

/-- Serialization aliases of the `Lot` model.  Modelled from the spec: the
model is not under `src/`; the wire names `inventoryOnHand` and
`StorageLocation` are fixed by the code in `collections/lots.py` that
filters and rewrites them, the rest are the usual camel-case aliases. -/
def lotsAlias (a : String) : String :=
  if a == ("inventory_on_hand") then ("inventoryOnHand")
  else if a == ("storage_location") then ("StorageLocation")
  else if a == ("manufacturer_lot_number") then ("manufacturerLotNumber")
  else if a == ("expiration_date") then ("expirationDate")
  else if a == ("initial_quantity") then ("initialQuantity")
  else if a == ("pack_size") then ("packSize")
  else if a == ("barcode_id") then ("barcodeId")
  else a

/-- View of a lot as a generic resource for the base builder. -/
def lotToRes (l : Lot) : GRes where
  attrs :=
    [(("storage_location"), l.storage_location.map PValue.pEnt),
     (("manufacturer_lot_number"), l.manufacturer_lot_number.map PValue.pStr),
     (("expiration_date"), l.expiration_date.map PValue.pStr),
     (("initial_quantity"), l.initial_quantity.map PValue.pFlt),
     (("inventory_on_hand"), l.inventory_on_hand.map PValue.pFlt),
     (("cost"), l.cost.map PValue.pFlt),
     (("status"), l.status.map PValue.pStr),
     (("pack_size"), l.pack_size.map PValue.pStr),
     (("barcode_id"), l.barcode_id.map PValue.pStr)]
  metadata := l.metadata

/-- Python `updated.inventory_on_hand != existing.inventory_on_hand` on the
optional floats. -/
def iohChanged : Option DecNum → Option DecNum → Bool
  | Option.none, Option.none => false
  | Option.some u, Option.some e => !decValEq u e
  | _, _ => true

/-- The storage-location rewrite applied to every datum at the end of
`_generate_lots_patch_payload` (`collections/lots.py`, lines 322–326):
rename the attribute and reduce the values to bare entity ids (`.id` on a
non-entity raises). -/
def slFix (d : PatchDatum) : Except Unit PatchDatum :=
  if d.attr == Attr.plain ("StorageLocation") then do
    let reduce : Option PValue → Except Unit (Option PValue) := fun ov =>
      match ov with
      | Option.none => .ok Option.none
      | Option.some v =>
          if pvFalsy v then .ok Option.none
          else
            match v with
            | .pEnt i => .ok (Option.some (.pStr i))
            | _ => .error ()
    let nv ← reduce d.new_value
    let ov ← reduce d.old_value
    .ok ⟨Attr.plain ("storageLocation"), d.operation, ov, nv⟩
  else .ok d

/-- Embedding of `LotCollection._generate_lots_patch_payload`
(`collections/lots.py`, lines 296–328): the generic payload, the
inventory-on-hand delta special case (`pyLotDelta`: `Decimal(str(·))`
subtraction and 14-place quantization under the default context, which
raises past 28 coefficient digits; `old_value` is the Python `str` of the
existing float, `new_value` the fixed-point `format(·, "f")` of the delta),
and the storage-location rewrite. -/
def generateLotsPatchPayload (existing updated : Lot) :
    Except Unit (List PatchDatum) := do
  let base ← genData lotsUpdatable lotsAlias true false
      (lotToRes existing) (lotToRes updated)
  let data ←
    if updated.inventory_on_hand.isSome &&
        iohChanged updated.inventory_on_hand existing.inventory_on_hand then
      match updated.inventory_on_hand, existing.inventory_on_hand with
      | Option.some u, Option.some e => do
          let filtered := base.filter fun d =>
            !(d.attr == Attr.plain ("inventoryOnHand"))
          -- `quantize` raises past the context precision (see `pyLotDelta`)
          let delta ← pyLotDelta u e
          .ok (filtered ++
            [⟨Attr.plain ("inventoryOnHand"), .update,
              Option.some (.pStr (pyFloatStr e)),
              Option.some (.pStr (pyDecRender delta.1 delta.2))⟩])
      | _, _ =>
          -- `Decimal(str(None))` raises `decimal.InvalidOperation`
          .error ()
    else .ok base
  exMapM data slFix

/-- Lot adjustment actions.  Modelled from the spec: `LotAdjustmentAction`
(`resources/lots.py`, not under `src/`) with members ADD, SUBTRACT, SET,
ZERO. -/
inductive LotAdjustmentAction where
  | add
  | subtract
  | set
  | zero
deriving DecidableEq

/-- HTTP requests issued by `LotCollection.adjust`. -/
inductive LotReq where
  | getLot (id : String)
  | patchLot (id : String) (data : List PatchDatum) (notes : Option String)
deriving DecidableEq

/-- Outcome of a `LotCollection.adjust` call: either an exception was raised
(recording the requests issued before the raise) or the call completed
(recording all issued requests, in order). -/
inductive AdjustResult where
  | raised (issued : List LotReq)
  | completed (issued : List LotReq)
deriving DecidableEq

/-- Python `quantity is None or quantity <= 0`. -/
def quantityInvalid : Option DecNum → Bool
  | Option.none => true
  | Option.some q => q.m ≤ 0

/-- Embedding of `LotCollection.adjust` (`collections/lots.py`, lines
340–401): the two local validations, the single existing-lot fetch, the
delta computation, and the PATCH of a single `inventoryOnHand` datum.  The
server is a function from lot id to the lot it returns. -/
def adjust (server : String → Lot) (lotId : String)
    (action : LotAdjustmentAction) (quantity : Option DecNum)
    (description : Option String) : AdjustResult :=
  if action == LotAdjustmentAction.zero && quantity.isSome then
    .raised []
  else if action != LotAdjustmentAction.zero && quantityInvalid quantity then
    .raised []
  else
    let existingLot := server lotId
    match existingLot.inventory_on_hand with
    | Option.none =>
        -- `Decimal(str(None))` raises
        .raised [.getLot lotId]
    | Option.some current =>
        let delta : Option DecNum :=
          match action with
          | .add => quantity
          | .subtract => quantity.map fun q => ⟨-q.m, q.e⟩
          | .set => quantity.map fun q => decSub q current
          | .zero => Option.some ⟨-current.m, current.e⟩
        match delta with
        | Option.none => .raised [.getLot lotId]
        | Option.some dl =>
            let datum : PatchDatum :=
              ⟨Attr.plain ("inventoryOnHand"), .update,
               Option.some (.pStr (decRender current)),
               Option.some (.pStr (decRender (quantize14 dl)))⟩
            .completed [.getLot lotId, .patchLot lotId [datum] description,
                        .getLot lotId]

/-- Visibility flags of the standard fields of an entity type
(`resources/entity_types.py`, `EntityTypeStandardFieldVisibility`):
`notes`, `tags`, `due_date`, with aliases `Notes`, `Tags`, `DueDate`. -/
structure SFV where
  notes : Bool
  tags : Bool
  dueDate : Bool
deriving DecidableEq

/-- Search query strings of an entity type (`resources/entity_types.py`,
`EntityTypeSearchQueryStrings`): optional `DAT` and `PRG`, no aliases. -/
structure SQS where
  dat : Option String
  prg : Option String
deriving DecidableEq

/-- Entity type snapshot (`resources/entity_types.py`, `EntityType`),
restricted to the updatable attributes.  A custom field is kept opaque
(only compared for equality and dumped wholesale by the code). -/
structure EntityType where
  label : Option String := Option.none
  template_based : Option Bool := Option.none
  locked_template : Option Bool := Option.none
  custom_fields : Option (List String) := Option.none
  standard_field_visibility : Option SFV := Option.none
  search_query_string : Option SQS := Option.none

/-- The `EntityTypeCollection._updatable_attributes` set
(`collections/entity_types.py`, lines 19–26), in the order written there. -/
def etUpdatable : List String :=
  [("label"), ("template_based"), ("locked_template"), ("custom_fields"),
   ("standard_field_visibility"), ("search_query_string")]

/-- Serialization aliases of the `EntityType` model
(`resources/entity_types.py`, lines 169–184). -/
def etAlias (a : String) : String :=
  if a == ("template_based") then ("templateBased")
  else if a == ("locked_template") then ("lockedTemplate")
  else if a == ("custom_fields") then ("customFields")
  else if a == ("standard_field_visibility") then ("standardFieldVisibility")
  else if a == ("search_query_string") then ("searchQueryString")
  else a

/-- View of an entity type as a generic resource for the base builder. -/
def etToRes (t : EntityType) : GRes where
  attrs :=
    [(("label"), t.label.map PValue.pStr),
     (("template_based"), t.template_based.map PValue.pBool),
     (("locked_template"), t.locked_template.map PValue.pBool),
     (("custom_fields"), t.custom_fields.map PValue.pStrList),
     (("standard_field_visibility"),
        t.standard_field_visibility.map fun s => PValue.pSFV s.notes s.tags s.dueDate),
     (("search_query_string"),
        t.search_query_string.map fun s => PValue.pSQS s.dat s.prg)]
  metadata := Option.none

/-- Embedding of `EntityTypeCollection._generate_special_attribute_patches`
(`collections/entity_types.py`, lines 85–193): whole-list custom-field
UPDATE/ADD, and field-by-field flattening of the visibility and
search-query-string objects (`getattr` on a `None` existing object
raises). -/
def etSpecialPatches (existing updated : EntityType) :
    Except Unit (List PatchDatum) := do
  let cf : List PatchDatum :=
    match updated.custom_fields, existing.custom_fields with
    | Option.some u, Option.some e =>
        [⟨Attr.plain ("customFields"), .update,
          Option.some (.pStrList e), Option.some (.pStrList u)⟩]
    | Option.some u, Option.none =>
        [⟨Attr.plain ("customFields"), .add,
          Option.none, Option.some (.pStrList u)⟩]
    | Option.none, _ => []
  let sfv ←
    match updated.standard_field_visibility with
    | Option.none => .ok ([] : List PatchDatum)
    | Option.some s =>
        match existing.standard_field_visibility with
        | Option.none => .error ()
        | Option.some s0 =>
            let fields : List (String × Bool × Bool) :=
              [(("Notes"), s0.notes, s.notes),
               (("Tags"), s0.tags, s.tags),
               (("DueDate"), s0.dueDate, s.dueDate)]
            .ok (fields.flatMap fun f =>
              if f.2.2 != f.2.1 then
                [⟨Attr.plain (("standardFieldVisibility.") ++ f.1), .update,
                  Option.some (.pBool f.2.1), Option.some (.pBool f.2.2)⟩]
              else [])
  let sqs ←
    match updated.search_query_string with
    | Option.none => .ok ([] : List PatchDatum)
    | Option.some s =>
        match existing.search_query_string with
        | Option.none => .error ()
        | Option.some s0 =>
            let fields : List (String × Option String × Option String) :=
              [(("DAT"), s0.dat, s.dat), (("PRG"), s0.prg, s.prg)]
            .ok (fields.flatMap fun f =>
              if f.2.2 != f.2.1 then
                [⟨Attr.plain (("searchQueryString.") ++ f.1), .update,
                  f.2.1.map PValue.pStr, f.2.2.map PValue.pStr⟩]
              else [])
  .ok (cf ++ sfv ++ sqs)

/-- Full diff generation of `EntityTypeCollection.update`
(`collections/entity_types.py`, lines 57–83): the generic payload (metadata
diff disabled, values not stringified) extended with the special attribute
patches. -/
def generateEntityTypePatchPayload (existing updated : EntityType) :
    Except Unit (List PatchDatum) := do
  let base ← genData etUpdatable etAlias false false
      (etToRes existing) (etToRes updated)
  let special ← etSpecialPatches existing updated
  .ok (base ++ special)

/-- Datatype of a validation.  Modelled from the spec: the `DataType` enum
(`resources/parameter_groups.py` variant not under `src/`); only membership
in `ENUM` is inspected by the diff code, other members are kept abstract. -/
inductive DataType where
  | enum
  | nonEnum (tag : String)
deriving DecidableEq

/-- One enum validation value.  Modelled from the spec: `EnumValidationValue`
(not under `src/`): an optional server id, a text, and a server-round-trip
`original_text`. -/
structure EnumValidationValue where
  id : Option String
  text : String
  original_text : Option String := Option.none
deriving DecidableEq

/-- One validation entry.  Modelled from the spec: `ValueValidation` (not
under `src/`): a datatype, the enum value list for enum validations, and the
remaining fields (bounds etc.) collapsed into an opaque component. -/
structure ValueValidation where
  datatype : DataType
  value : Option (List EnumValidationValue) := Option.none
  extra : String := ""
deriving DecidableEq

/-- Parameter value of a parameter group / data template.  Modelled from the
spec: the `ParameterValue` variant consumed by `utils/_patch.py` (not under
`src/`): a server-assigned `sequence`, a `value`, a `unit` linked entity
(kept as its id) and a `validation` list. -/
structure ParameterValue where
  sequence : Option String := Option.none
  value : Option PValue := Option.none
  unit : Option String := Option.none
  validation : Option (List ValueValidation) := Option.none
deriving DecidableEq

/-- Data column value of a data template (`resources/data_templates.py`,
`DataColumnValue`), restricted to the fields the diff code reads. -/
structure DataColumnValue where
  sequence : Option String := Option.none
  value : Option PValue := Option.none
  unit : Option String := Option.none
  validation : Option (List ValueValidation) := Option.none
deriving DecidableEq

/-- Value slot of a parameter-group / data-template patch datum. -/
inductive PGVal where
  | v (x : PValue)
  | vList (vs : List ValueValidation)
  | seqList (ss : List (Option String))
  | seq (s : Option String)
deriving DecidableEq

/-- Parameter-group patch datum.  Modelled from the spec: `PGPatchDatum`
(not under `src/`): operation, attribute, optional values, optional
`rowId`. -/
structure PGPatchDatum where
  operation : PatchOperation
  attr : String
  oldValue : Option PGVal := Option.none
  newValue : Option PGVal := Option.none
  rowId : Option String := Option.none
deriving DecidableEq

/-- Data-template patch datum.  Modelled from the spec: `DTPatchDatum` (not
under `src/`): operation, attribute, optional values, optional `colId`. -/
structure DTPatchDatum where
  operation : PatchOperation
  attr : String
  oldValue : Option PGVal := Option.none
  newValue : Option PGVal := Option.none
  colId : Option String := Option.none
deriving DecidableEq

/-- Grouping datum for data-column actions.  Modelled from the spec:
`GeneralPatchDatum` (not under `src/`): an attribute, a list of action data
(whose `colId`s are cleared), and the `colId` of the targeted column. -/
structure GeneralPatchDatum where
  attr : String
  actions : List DTPatchDatum
  colId : Option String := Option.none
deriving DecidableEq

/-- Element of the heterogeneous patch list built by
`generate_data_column_patches`. -/
inductive DCPatch where
  | dt (d : DTPatchDatum)
  | general (g : GeneralPatchDatum)
deriving DecidableEq

/-- One entry of the enum patch list (a small `{operation, id?, text?}`
dict). -/
inductive EnumPatch where
  | add (text : String)
  | del (id : Option String)
  | upd (id : Option String) (text : String)
deriving DecidableEq

instance : DecidableEq (List ParameterValue ×
    List (Option String × List EnumPatch)) :=
  instDecidableEqProd

instance : DecidableEq (List PGPatchDatum ×
    List ParameterValue × List (Option String × List EnumPatch)) :=
  instDecidableEqProd

instance : DecidableEq (List DataColumnValue ×
    List (Option String × List EnumPatch)) :=
  instDecidableEqProd

instance : DecidableEq (List DCPatch ×
    List DataColumnValue × List (Option String × List EnumPatch)) :=
  instDecidableEqProd

/-- Embedding of `_parameter_unit_patches` (`utils/_patch.py`, lines
35–66). -/
def parameterUnitPatches (initial updated : ParameterValue) :
    Option PGPatchDatum :=
  if initial.unit == updated.unit then Option.none
  else
    match initial.unit, updated.unit with
    | Option.none, Option.some u =>
        Option.some ⟨.add, ("unitId"), Option.none,
          Option.some (.v (.pStr u)), updated.sequence⟩
    | Option.some i, Option.none =>
        Option.some ⟨.delete, ("unitId"), Option.some (.v (.pStr i)),
          Option.none, updated.sequence⟩
    | Option.some i, Option.some u =>
        if i != u then
          Option.some ⟨.update, ("unitId"), Option.some (.v (.pStr i)),
            Option.some (.v (.pStr u)), updated.sequence⟩
        else Option.none
    | Option.none, Option.none => Option.none

/-- Embedding of `_parameter_value_patches` (`utils/_patch.py`, lines
104–135). -/
def parameterValuePatches (initial updated : ParameterValue) :
    Option PGPatchDatum :=
  if initial.value == updated.value then Option.none
  else
    match initial.value, updated.value with
    | Option.none, Option.some u =>
        Option.some ⟨.add, ("value"), Option.none,
          Option.some (.v u), updated.sequence⟩
    | Option.some i, Option.none =>
        Option.some ⟨.delete, ("value"), Option.some (.v i),
          Option.none, updated.sequence⟩
    | Option.some i, Option.some u =>
        if i != u then
          Option.some ⟨.update, ("value"), Option.some (.v i),
            Option.some (.v u), updated.sequence⟩
        else Option.none
    | Option.none, Option.none => Option.none

/-- The enum-value clearing applied to a copied validation list before
comparison (`utils/_patch.py`, lines 219–230 and 189–200): a singleton
enum-typed validation has its `value` dropped. -/
def clearEnumValue (v : Option (List ValueValidation)) :
    Option (List ValueValidation) :=
  match v with
  | Option.some [w] =>
      if w.datatype == DataType.enum then Option.some [{ w with value := Option.none }]
      else v
  | _ => v

/-- Embedding of `parameter_validation_patch` (`utils/_patch.py`, lines
211–256).  Note the update branch carries no `oldValue`, exactly as in the
source. -/
def parameterValidationPatch (initial updated : ParameterValue) :
    Option PGPatchDatum :=
  let iv := clearEnumValue initial.validation
  let uv := clearEnumValue updated.validation
  if iv == uv then Option.none
  else
    match iv, uv with
    | Option.none, Option.some u =>
        Option.some ⟨.add, ("validation"), Option.none,
          Option.some (.vList u), updated.sequence⟩
    | Option.some i, Option.none =>
        Option.some ⟨.delete, ("validation"), Option.some (.vList i),
          Option.none, updated.sequence⟩
    | Option.some i, Option.some u =>
        if i != u then
          Option.some ⟨.update, ("validation"), Option.none,
            Option.some (.vList u), updated.sequence⟩
        else Option.none
    | Option.none, Option.none => Option.none

/-- Embedding of `_data_column_unit_patches` (`utils/_patch.py`, lines
69–101); note the `colId` comes from the initial column. -/
def dataColumnUnitPatches (initial updated : DataColumnValue) :
    Option DTPatchDatum :=
  if initial.unit == updated.unit then Option.none
  else
    match initial.unit, updated.unit with
    | Option.none, Option.some u =>
        Option.some ⟨.add, ("unit"), Option.none,
          Option.some (.v (.pStr u)), initial.sequence⟩
    | Option.some i, Option.none =>
        Option.some ⟨.delete, ("unit"), Option.some (.v (.pStr i)),
          Option.none, initial.sequence⟩
    | Option.some i, Option.some u =>
        if i != u then
          Option.some ⟨.update, ("unit"), Option.some (.v (.pStr i)),
            Option.some (.v (.pStr u)), initial.sequence⟩
        else Option.none
    | Option.none, Option.none => Option.none

/-- Embedding of `_data_column_value_patches` (`utils/_patch.py`, lines
138–168). -/
def dataColumnValuePatches (initial updated : DataColumnValue) :
    Option DTPatchDatum :=
  if initial.value == updated.value then Option.none
  else
    match initial.value, updated.value with
    | Option.none, Option.some u =>
        Option.some ⟨.add, ("value"), Option.none,
          Option.some (.v u), initial.sequence⟩
    | Option.some i, Option.none =>
        Option.some ⟨.delete, ("value"), Option.some (.v i),
          Option.none, initial.sequence⟩
    | Option.some i, Option.some u =>
        if i != u then
          Option.some ⟨.update, ("value"), Option.some (.v i),
            Option.some (.v u), initial.sequence⟩
        else Option.none
    | Option.none, Option.none => Option.none

/-- Embedding of `data_column_validation_patches` (`utils/_patch.py`, lines
171–208); unlike its parameter sibling, its update branch carries both
values, and its data carry no `colId`. -/
def dataColumnValidationPatches (initial updated : DataColumnValue) :
    Option DTPatchDatum :=
  if initial.validation == updated.validation then Option.none
  else
    match initial.validation, updated.validation with
    | Option.none, Option.some u =>
        Option.some ⟨.add, ("validation"), Option.none,
          Option.some (.vList u), Option.none⟩
    | Option.some i, Option.none =>
        Option.some ⟨.delete, ("validation"), Option.some (.vList i),
          Option.none, Option.none⟩
    | _, _ =>
        let iv := clearEnumValue initial.validation
        let uv := clearEnumValue updated.validation
        if iv != uv then
          Option.some ⟨.update, ("validation"),
            iv.map PGVal.vList, uv.map PGVal.vList, Option.none⟩
        else Option.none

/-- Embedding of `generate_enum_patches` (`utils/_patch.py`, lines 329–353).
The element lists are typed, so the `isinstance` filters of the source keep
every element.  Every updated item whose id is present among the existing
ids yields an update entry — the source has no text-change check here. -/
def generateEnumPatches (existingEnums updatedEnums : List EnumValidationValue) :
    List EnumPatch :=
  let existingEnumIds := (existingEnums.filter fun x => x.id.isSome).filterMap fun x => x.id
  let updatedEnumIds := (updatedEnums.filter fun x => x.id.isSome).filterMap fun x => x.id
  let deletedEnums := existingEnums.filter fun x =>
    x.id.isSome && !(updatedEnumIds.contains (x.id.getD ""))
  let newEnums := updatedEnums.filter fun x =>
    x.id.isNone || !(existingEnumIds.contains (x.id.getD ""))
  let enumsToUpdate := updatedEnums.filter fun x =>
    x.id.isSome && existingEnumIds.contains (x.id.getD "")
  (newEnums.map fun x => EnumPatch.add x.text) ++
  (deletedEnums.map fun x => EnumPatch.del x.id) ++
  (enumsToUpdate.map fun x => EnumPatch.upd x.id x.text)

/-- Embedding of the enum diff inside `DataTemplateCollection._add_param_enums`
(`collections/data_templates.py`, lines 309–337), which — unlike
`generate_enum_patches` — only emits an update entry when the text actually
changed.  Inputs are the already-filtered enum lists of that code path. -/
def addParamEnumsDiff (existingEnums updatedEnums : List EnumValidationValue) :
    List EnumPatch :=
  let deletedEnums := existingEnums.filter fun x =>
    !((updatedEnums.map fun y => y.id).contains x.id)
  let newEnums := updatedEnums.filter fun x =>
    !((existingEnums.map fun y => y.id).contains x.id)
  let matchingEnums := updatedEnums.filter fun x =>
    (existingEnums.map fun y => y.id).contains x.id
  (newEnums.map fun x => EnumPatch.add x.text) ++
  (deletedEnums.map fun x => EnumPatch.del x.id) ++
  (matchingEnums.flatMap fun m =>
    match existingEnums.find? fun e => e.id == m.id with
    | Option.some e0 => if m.text != e0.text then [EnumPatch.upd m.id m.text] else []
    | Option.none => [])

/-- The enum sub-diff triggered for a matched child whose updated validation
head is enum-typed (`utils/_patch.py`, lines 317–325 and 408–416):
`validation[0].value` of either side being `None` (or the existing
validation being `None`/empty) raises. -/
def enumPairPatches (exVal upVal : Option (List ValueValidation)) :
    Except Unit (List EnumPatch) :=
  match exVal, upVal with
  | Option.some (w :: _), Option.some (w' :: _) =>
      match w.value, w'.value with
      | Option.some a, Option.some b => .ok (generateEnumPatches a b)
      | _, _ => .error ()
  | _, _ => .error ()

/-- Guard of the enum sub-diff: `validation is not None and validation != []
and validation[0].datatype == DataType.ENUM` on the updated child. -/
def enumGuard (v : Option (List ValueValidation)) : Bool :=
  match v with
  | Option.some (w :: _) => w.datatype == DataType.enum
  | _ => false

/-- Python falsiness of an optional sequence (`not x.sequence`): `None` or
the empty string. -/
def seqFalsy : Option String → Bool
  | Option.none => true
  | Option.some s => s.isEmpty

/-- Per-matched-parameter body of the loop in `generate_parameter_patches`
(`utils/_patch.py`, lines 394–416): resolve the existing parameter by
sequence, emit unit / value / validation patches, then the enum sub-diff. -/
def handleMatchedParam (initial : List ParameterValue) (q : ParameterValue) :
    Except Unit (List PGPatchDatum × List (Option String × List EnumPatch)) := do
  let existingParam ←
    match initial.find? fun x => x.sequence == q.sequence with
    | Option.some x => .ok x
    | Option.none => .error ()
  let ps := (parameterUnitPatches existingParam q).toList ++
            (parameterValuePatches existingParam q).toList ++
            (parameterValidationPatch existingParam q).toList
  if enumGuard q.validation then do
    let es ← enumPairPatches existingParam.validation q.validation
    .ok (ps, [(q.sequence, es)])
  else
    .ok (ps, [])

/-- Sequential processing of the matched parameters, accumulating patches
and the enum dictionary. -/
def processMatchedParams (initial : List ParameterValue)
    (ms : List ParameterValue) :
    Except Unit (List PGPatchDatum × List (Option String × List EnumPatch)) :=
  match ms with
  | [] => .ok ([], [])
  | q :: rest => do
      let (ps, es) ← handleMatchedParam initial q
      let (ps', es') ← processMatchedParams initial rest
      .ok (ps ++ ps', es ++ es')

/-- Embedding of `generate_parameter_patches` (`utils/_patch.py`, lines
356–417): partition by sequence, one collective DELETE datum for all deleted
sequences, then the per-matched-parameter patches. -/
def generateParameterPatches (initialParameters updatedParameters : List ParameterValue)
    (parameterAttributeName : String) :
    Except Unit (List PGPatchDatum × List ParameterValue ×
      List (Option String × List EnumPatch)) := do
  let initialSeqs := initialParameters.map fun y => y.sequence
  let updatedSeqs := updatedParameters.map fun y => y.sequence
  let newParameters := updatedParameters.filter fun x =>
    !(initialSeqs.contains x.sequence) || seqFalsy x.sequence
  let deletedParameters := initialParameters.filter fun x =>
    !(updatedSeqs.contains x.sequence)
  let matched := updatedParameters.filter fun x =>
    initialSeqs.contains x.sequence
  let deletePatches : List PGPatchDatum :=
    if deletedParameters.isEmpty then []
    else
      [⟨.delete, parameterAttributeName,
        Option.some (.seqList (deletedParameters.map fun x => x.sequence)),
        Option.none, Option.none⟩]
  let (ps, es) ← processMatchedParams initialParameters matched
  .ok (deletePatches ++ ps, newParameters, es)

/-- Per-matched-column body of the loop in `generate_data_column_patches`
(`utils/_patch.py`, lines 290–325): group value/validation patches (with
their `colId`s cleared) under a `GeneralPatchDatum`, append the unit patch
separately, then the enum sub-diff. -/
def handleMatchedColumn (initial : List DataColumnValue) (q : DataColumnValue) :
    Except Unit (List DCPatch × List (Option String × List EnumPatch)) := do
  let initialDc ←
    match initial.find? fun x => x.sequence == q.sequence with
    | Option.some x => .ok x
    | Option.none => .error ()
  let theseActions := (dataColumnValuePatches initialDc q).toList ++
                      (dataColumnValidationPatches initialDc q).toList
  let theseActions := theseActions.map fun a => { a with colId := Option.none }
  let grouped : List DCPatch :=
    if theseActions.isEmpty then []
    else [.general ⟨("datacolumn"), theseActions, q.sequence⟩]
  let unitPart : List DCPatch :=
    (dataColumnUnitPatches initialDc q).toList.map DCPatch.dt
  if enumGuard q.validation then do
    let es ← enumPairPatches initialDc.validation q.validation
    .ok (grouped ++ unitPart, [(q.sequence, es)])
  else
    .ok (grouped ++ unitPart, [])

/-- Sequential processing of the matched data columns. -/
def processMatchedColumns (initial : List DataColumnValue)
    (ms : List DataColumnValue) :
    Except Unit (List DCPatch × List (Option String × List EnumPatch)) :=
  match ms with
  | [] => .ok ([], [])
  | q :: rest => do
      let (ps, es) ← handleMatchedColumn initial q
      let (ps', es') ← processMatchedColumns initial rest
      .ok (ps ++ ps', es ++ es')

/-- Embedding of `generate_data_column_patches` (`utils/_patch.py`, lines
259–326): partition by sequence, one DELETE datum *per* deleted column, then
the per-matched-column patches. -/
def generateDataColumnPatches (initialDataColumn updatedDataColumn : List DataColumnValue) :
    Except Unit (List DCPatch × List DataColumnValue ×
      List (Option String × List EnumPatch)) := do
  let initialSeqs := initialDataColumn.map fun y => y.sequence
  let updatedSeqs := updatedDataColumn.map fun y => y.sequence
  let newDataColumns := updatedDataColumn.filter fun x =>
    !(initialSeqs.contains x.sequence) || seqFalsy x.sequence
  let deletedDataColumns := initialDataColumn.filter fun x =>
    !(updatedSeqs.contains x.sequence)
  let matched := updatedDataColumn.filter fun x =>
    initialSeqs.contains x.sequence
  let deletePatches : List DCPatch := deletedDataColumns.map fun dc =>
    .dt ⟨.delete, ("datacolumn"), Option.some (.seq dc.sequence),
         Option.none, Option.none⟩
  let (ps, es) ← processMatchedColumns initialDataColumn matched
  .ok (deletePatches ++ ps, newDataColumns, es)

/-- Is a list element an id-bearing linked entity? -/
def isEntElem : MetaElem → Bool
  | .ent _ => true
  | .raw _ => false

/-- Total id extraction used only to state theorems: the ids the
changed-list branch reads off an existing value, in order. -/
def metaIdsList : MetaValue → List String
  | .list l => l.map fun x => x.idOf.getD ""
  | .ent i => [i]
  | _ => []

/-- Well-formed `MetadataItem` shape: a scalar, a linked entity, or a list
of linked entities (the shapes the data model admits). -/
def wfVal : MetaValue → Bool
  | .str _ => true
  | .int _ => true
  | .flt _ => true
  | .ent _ => true
  | .list l => l.all isEntElem
  | .mvNone => false
  | .other _ => false

/-- Shape compatibility of an existing value `v` with an updated value `v'`
under the changed-key dispatch of the metadata differ: a scalar update
accepts any existing shape, a list update needs an existing list or entity
(for the singleton-set coercion), an entity update needs an existing
entity. -/
def shapeCompat (v v' : MetaValue) : Bool :=
  match v' with
  | .str _ => true
  | .int _ => true
  | .flt _ => true
  | .list _ =>
      match v with
      | .list _ => true
      | .ent _ => true
      | _ => false
  | .ent _ =>
      match v with
      | .ent _ => true
      | _ => false
  | .mvNone => true
  | .other _ => true

/-- A datum slot that is absent or holds a linked entity (the only shapes
the lots base payload ever puts in a `StorageLocation` datum). -/
def optEntShaped (x : Option PValue) : Prop :=
  x = Option.none ∨ ∃ i, x = Option.some (PValue.pEnt i)

/-- Both slots of a datum are absent-or-entity. -/
def entShaped (d : PatchDatum) : Prop :=
  optEntShaped d.old_value ∧ optEntShaped d.new_value

/-- Existing lot of the C4 witness: 10.0 on hand, stored at SL1. -/
def exLotC4 : Lot :=
  { inventory_on_hand := Option.some ⟨100, 1⟩,
    storage_location := Option.some ("SL1") }

/-- Updated lot of the C4 witness: 15.0 on hand, moved to SL2. -/
def upLotC4 : Lot :=
  { inventory_on_hand := Option.some ⟨150, 1⟩,
    storage_location := Option.some ("SL2") }

/-- A lot with no recorded inventory (`inventory_on_hand is None`). -/
def lotC4None : Lot := {}

/-- Parameter of the C9 witness: sequence 1, value "a", no unit, no
validation. -/
def p0c9 : ParameterValue :=
  { sequence := Option.some ("1"), value := Option.some (.pStr ("a")) }

/-- Parameter of the C10 witness: sequence 1, nothing else. -/
def pC10 : ParameterValue := { sequence := Option.some ("1") }

/-- Data column of the C10 witness: sequence 2, nothing else. -/
def cC10 : DataColumnValue := { sequence := Option.some ("2") }

/-- Entity type used to refute the unrestricted idempotence claim: both
snapshots carry the same non-`None` custom-field list. -/
def etWithCF : EntityType :=
  { custom_fields := Option.some [("cf1")] }

/-- Concrete resource, lot and entity type exercising the amended
idempotence theorem. -/
def resSelf : GRes :=
  { attrs := [(("name"), Option.some (.pStr ("n")))],
    metadata := Option.some [(("k"), MetaValue.ent ("E1"))] }

/-- Concrete lot for the idempotence witness. -/
def lotSelf : Lot :=
  { inventory_on_hand := Option.some ⟨100, 1⟩,
    storage_location := Option.some ("SL1"),
    metadata := Option.some [(("k1"), MetaValue.str ("v"))] }

/-- Concrete entity type (with visibility flags but no custom fields) for
the idempotence witness. -/
def etSelf : EntityType :=
  { label := Option.some ("L"),
    standard_field_visibility := Option.some ⟨true, false, true⟩,
    search_query_string := Option.some ⟨Option.some ("q"), Option.none⟩ }

/-- Server stub returning `lotSelf` (inventory on hand `10.0`) for every
id. -/
def lotServer : String → Lot := fun _ => lotSelf

/-- Two parameter values with the same sequence whose (non-enum) validations
differ — the failing input for the per-operation field rule. -/
def paramValidA : ParameterValue :=
  { sequence := Option.some ("1"),
    validation := Option.some [⟨.nonEnum ("string"), Option.none, ("min=0")⟩] }

/-- Updated counterpart of `paramValidA` with a changed validation. -/
def paramValidB : ParameterValue :=
  { sequence := Option.some ("1"),
    validation := Option.some [⟨.nonEnum ("string"), Option.none, ("min=5")⟩] }

/-- Concrete mappings for the safety witness: an entity value changed into
a list of entities. -/
def exMetaW : List (String × MetaValue) := [(("a"), MetaValue.ent ("E1"))]

/-- Updated counterpart of `exMetaW`. -/
def upMetaW : List (String × MetaValue) :=
  [(("a"), MetaValue.list [.ent ("E1"), .ent ("E2")])]

/-- Existing mapping of the C3 witness: a two-entity list under key `t`. -/
def exC3 : List (String × MetaValue) :=
  [(("t"), MetaValue.list [.ent ("E1"), .ent ("E2")])]

/-- Updated mapping of the C3 witness: entity E1 removed, E3 added. -/
def upC3 : List (String × MetaValue) :=
  [(("t"), MetaValue.list [.ent ("E2"), .ent ("E3")])]

/-- The single UPDATE datum the mixed delta of the C3 witness produces. -/
def c3datum : PatchDatum :=
  ⟨Attr.meta ("t"), .update,
   Option.some (.pStrSet ({("E1"), ("E2")} : Finset String)),
   Option.some (.pStrSet ({("E2"), ("E3")} : Finset String))⟩

theorem exceptBindOk {α β : Type} (a : α) (f : α → Except Unit β) :
    (Bind.bind (Except.ok a) f) = f a := rfl

theorem exceptBindErr {α β : Type} (f : α → Except Unit β) :
    (Bind.bind (Except.error () : Except Unit α) f) = Except.error () := rfl

theorem decValEq_refl (a : DecNum) : decValEq a a = true := by
  simp [decValEq]

theorem elemEq_refl (x : MetaElem) : elemEq x x = true := by
  cases x <;> simp [elemEq]

theorem zipAll_elemEq_refl (l : List MetaElem) :
    ((l.zip l).all fun p => elemEq p.1 p.2) = true := by
  induction l with
  | nil => rfl
  | cons a r ih => simpa [elemEq_refl] using ih

theorem mvEq_refl (v : MetaValue) : mvEq v v = true := by
  cases v <;> simp [mvEq, decValEq_refl, zipAll_elemEq_refl]

theorem pvEq_refl (v : PValue) : pvEq v v = true := by
  cases v <;> simp [pvEq, decValEq_refl, zipAll_elemEq_refl]

theorem optPvEq_refl (v : Option PValue) : optPvEq v v = true := by
  cases v <;> simp [optPvEq, pvEq_refl]

theorem exBind_nil {α β : Type} (f : α → Except Unit (List β)) :
    exBind [] f = .ok [] := rfl

theorem exBind_cons {α β : Type} (a : α) (r : List α)
    (f : α → Except Unit (List β)) :
    exBind (a :: r) f =
      Bind.bind (f a) fun x =>
        Bind.bind (exBind r f) fun y => Except.ok (x ++ y) := rfl

theorem exBind_all_nil {α β : Type} {l : List α}
    {f : α → Except Unit (List β)} (h : ∀ a ∈ l, f a = .ok []) :
    exBind l f = .ok [] := by
  induction l with
  | nil => rfl
  | cons a r ih =>
      rw [exBind_cons, h a (List.mem_cons_self a r),
        ih fun x hx => h x (List.mem_cons_of_mem a hx)]
      rfl

theorem exBind_cons_ok {α β : Type} {a : α} {r : List α}
    {f : α → Except Unit (List β)} {L : List β}
    (h : exBind (a :: r) f = .ok L) :
    ∃ x y, f a = .ok x ∧ exBind r f = .ok y ∧ L = x ++ y := by
  rw [exBind_cons] at h
  cases h1 : f a with
  | error e => rw [h1] at h; cases e; rw [exceptBindErr] at h; cases h
  | ok x =>
      rw [h1, exceptBindOk] at h
      cases h2 : exBind r f with
      | error e => rw [h2] at h; cases e; rw [exceptBindErr] at h; cases h
      | ok y =>
          rw [h2, exceptBindOk] at h
          cases h
          exact ⟨x, y, rfl, rfl, rfl⟩

theorem exBind_mem {α β : Type} {l : List α} {f : α → Except Unit (List β)}
    {L : List β} (h : exBind l f = .ok L) {d : β} (hd : d ∈ L) :
    ∃ a ∈ l, ∃ La, f a = .ok La ∧ d ∈ La := by
  induction l generalizing L with
  | nil => cases h; cases hd
  | cons a r ih =>
      obtain ⟨x, y, hx, hy, rfl⟩ := exBind_cons_ok h
      rcases List.mem_append.mp hd with hdx | hdy
      · exact ⟨a, List.mem_cons_self a r, x, hx, hdx⟩
      · obtain ⟨b, hb, Lb, hLb, hdb⟩ := ih hy hdy
        exact ⟨b, List.mem_cons_of_mem a hb, Lb, hLb, hdb⟩

theorem exMapM_nil {α β : Type} (f : α → Except Unit β) :
    exMapM [] f = .ok [] := rfl

theorem exMapM_cons {α β : Type} (a : α) (r : List α)
    (f : α → Except Unit β) :
    exMapM (a :: r) f =
      Bind.bind (f a) fun b =>
        Bind.bind (exMapM r f) fun bs => Except.ok (b :: bs) := rfl

theorem exMapM_append {α β : Type} (l r : List α) (f : α → Except Unit β) :
    exMapM (l ++ r) f =
      Bind.bind (exMapM l f) fun x =>
        Bind.bind (exMapM r f) fun y => Except.ok (x ++ y) := by
  induction l with
  | nil =>
      simp only [List.nil_append, exMapM_nil, exceptBindOk]
      cases h : exMapM r f with
      | error e => cases e; rfl
      | ok y => rfl
  | cons a t ih =>
      rw [List.cons_append, exMapM_cons, exMapM_cons]
      cases h1 : f a with
      | error e => cases e; rfl
      | ok b =>
          rw [exceptBindOk, exceptBindOk, ih]
          cases h2 : exMapM t f with
          | error e => cases e; rfl
          | ok x =>
              rw [exceptBindOk, exceptBindOk]
              cases h3 : exMapM r f with
              | error e => cases e; rfl
              | ok y => rfl

theorem exMapM_of_pointwise {α β : Type} {l : List α}
    {f : α → Except Unit β} {g : α → β}
    (h : ∀ a ∈ l, f a = .ok (g a)) :
    exMapM l f = .ok (l.map g) := by
  induction l with
  | nil => rfl
  | cons a r ih =>
      rw [exMapM_cons, h a (List.mem_cons_self a r), exceptBindOk,
        ih fun x hx => h x (List.mem_cons_of_mem a hx), exceptBindOk,
        List.map_cons]

theorem alookup_of_mem_nodup {α : Type} {m : List (String × α)}
    (hnd : (m.map Prod.fst).Nodup) {k : String} {v : α}
    (hm : (k, v) ∈ m) : alookup m k = Option.some v := by
  induction m with
  | nil => cases hm
  | cons p r ih =>
      rcases List.mem_cons.mp hm with rfl | hr
      · simp [alookup, List.find?]
      · have hk : p.1 ≠ k := by
          intro hkk
          have : k ∈ r.map Prod.fst := List.mem_map_of_mem Prod.fst hr
          rw [List.map_cons, List.nodup_cons] at hnd
          exact hnd.1 (hkk ▸ this)
        have hnd' : (r.map Prod.fst).Nodup := by
          rw [List.map_cons, List.nodup_cons] at hnd
          exact hnd.2
        have hkf : (p.1 == k) = false := beq_eq_false_iff_ne.mpr hk
        simpa [alookup, List.find?, hkf] using ih hnd' hr

theorem metaChangedData_self (k : String) (v : MetaValue) :
    metaChangedData k v v = .ok [] := by
  unfold metaChangedData
  rw [mvEq_refl]
  rfl

theorem handleExisting_self {m : List (String × MetaValue)} {k : String}
    {v : MetaValue} (h : alookup m k = Option.some v)
    (hv : v ≠ MetaValue.mvNone) :
    handleExisting m k v = .ok [] := by
  unfold handleExisting
  rw [h]
  cases v with
  | mvNone => exact absurd rfl hv
  | str s => exact metaChangedData_self _ _
  | int n => exact metaChangedData_self _ _
  | flt d => exact metaChangedData_self _ _
  | ent i => exact metaChangedData_self _ _
  | list l => exact metaChangedData_self _ _
  | other t => exact metaChangedData_self _ _

theorem metaDiff_self {m : List (String × MetaValue)}
    (hnd : (m.map Prod.fst).Nodup)
    (hnone : ∀ p ∈ m, p.2 ≠ MetaValue.mvNone) :
    metaDiff m m = .ok [] := by
  have h1 : exBind m (fun p => handleExisting m p.1 p.2) = .ok [] :=
    exBind_all_nil fun p hp => by
      obtain ⟨k, v⟩ := p
      exact handleExisting_self (alookup_of_mem_nodup hnd hp) (hnone (k, v) hp)
  have h2 : exBind m (fun p =>
      if (alookup m p.1).isNone then handleNew p.1 p.2 else .ok []) = .ok [] :=
    exBind_all_nil fun p hp => by
      obtain ⟨k, v⟩ := p
      have hl := alookup_of_mem_nodup hnd hp
      simp [hl]
  unfold metaDiff
  rw [h1, exceptBindOk, h2, exceptBindOk]
  rfl

theorem attrGeneric_self (alias0 : String) (stringify : Bool)
    (x : Option PValue) : attrGeneric alias0 stringify x x = [] := by
  cases x with
  | none => rfl
  | some v => simp [attrGeneric, attrGenericCore, optPvEq_refl]

theorem attrStep_self (aliasOf : String → String) (genMeta stringify : Bool)
    (r : GRes) (a : String)
    (hmd : ∀ md, r.metadata = Option.some md →
      (md.map Prod.fst).Nodup ∧ ∀ p ∈ md, p.2 ≠ MetaValue.mvNone) :
    attrStep aliasOf genMeta stringify r r a = .ok [] := by
  unfold attrStep
  by_cases hm : ((a == ("metadata")) && genMeta) = true
  · rw [if_pos hm]
    cases h0 : r.metadata with
    | none => simp [metaDiff, exBind_nil, exceptBindOk]
    | some md =>
        have h := metaDiff_self (hmd md h0).1 (hmd md h0).2
        cases md with
        | nil => simpa using h
        | cons p rest => simpa using h
  · rw [if_neg hm, attrGeneric_self]

theorem genData_self (updatable : List String) (aliasOf : String → String)
    (genMeta stringify : Bool) (r : GRes)
    (hmd : ∀ md, r.metadata = Option.some md →
      (md.map Prod.fst).Nodup ∧ ∀ p ∈ md, p.2 ≠ MetaValue.mvNone) :
    genData updatable aliasOf genMeta stringify r r = .ok [] :=
  exBind_all_nil fun a _ => attrStep_self aliasOf genMeta stringify r a hmd

theorem iohChanged_self (x : Option DecNum) : iohChanged x x = false := by
  cases x <;> simp [iohChanged, decValEq_refl]

theorem lotsPayload_self (l : Lot)
    (hmd : ∀ md, l.metadata = Option.some md →
      (md.map Prod.fst).Nodup ∧ ∀ p ∈ md, p.2 ≠ MetaValue.mvNone) :
    generateLotsPatchPayload l l = .ok [] := by
  have hbase : genData lotsUpdatable lotsAlias true false
      (lotToRes l) (lotToRes l) = .ok [] :=
    genData_self _ _ _ _ _ hmd
  unfold generateLotsPatchPayload
  rw [hbase, exceptBindOk, iohChanged_self]
  simp [exMapM_nil, exceptBindOk]

theorem etSpecial_self (t : EntityType)
    (hcf : t.custom_fields = Option.none) :
    etSpecialPatches t t = .ok [] := by
  unfold etSpecialPatches
  rw [hcf]
  cases hs : t.standard_field_visibility <;>
    cases hq : t.search_query_string <;>
      simp [exceptBindOk]

theorem etPayload_self (t : EntityType)
    (hcf : t.custom_fields = Option.none) :
    generateEntityTypePatchPayload t t = .ok [] := by
  have hbase : genData etUpdatable etAlias false false
      (etToRes t) (etToRes t) = .ok [] :=
    genData_self _ _ _ _ _ (fun md h => by cases h)
  unfold generateEntityTypePatchPayload
  rw [hbase, exceptBindOk, etSpecial_self t hcf, exceptBindOk]
  rfl

/-- Claim C1, amended: diffing a resource snapshot against itself yields an
empty `PatchPayload` for the generic builder (any updatable-attribute set,
aliasing and flags) and for the lots extension — for snapshots whose
metadata mapping is well-formed (unique keys, no explicit `None` value, as
the `MetadataItem` data model prescribes) — and for the entity-types
extension provided `custom_fields` is not populated on both snapshots.  The
unrestricted claim is refuted by `claim1_counterexample`. -/
theorem claim1_idempotence :
    (∀ (updatable : List String) (aliasOf : String → String)
        (genMeta stringify : Bool) (r : GRes),
      (∀ md, r.metadata = Option.some md →
        (md.map Prod.fst).Nodup ∧ ∀ p ∈ md, p.2 ≠ MetaValue.mvNone) →
      generatePatchPayload updatable aliasOf genMeta stringify r r = .ok ⟨[]⟩) ∧
    (∀ l : Lot,
      (∀ md, l.metadata = Option.some md →
        (md.map Prod.fst).Nodup ∧ ∀ p ∈ md, p.2 ≠ MetaValue.mvNone) →
      generateLotsPatchPayload l l = .ok []) ∧
    (∀ t : EntityType, t.custom_fields = Option.none →
      generateEntityTypePatchPayload t t = .ok []) := by
  refine ⟨fun updatable aliasOf genMeta stringify r hmd => ?_,
    fun l hmd => lotsPayload_self l hmd,
    fun t hcf => etPayload_self t hcf⟩
  unfold generatePatchPayload
  rw [genData_self updatable aliasOf genMeta stringify r hmd]
  rfl

/-- Claim C1, counterexample: an entity type whose existing and updated
snapshots are identical but carry a custom-field list produces a non-empty
payload — a whole-list `customFields` UPDATE whose old and new values are
equal — so diffing a resource against itself does *not* always yield an
empty payload. -/
theorem claim1_counterexample :
    generateEntityTypePatchPayload etWithCF etWithCF =
      .ok [⟨Attr.plain ("customFields"), .update,
            Option.some (.pStrList [("cf1")]),
            Option.some (.pStrList [("cf1")])⟩] ∧
    generateEntityTypePatchPayload etWithCF etWithCF ≠ .ok [] := by
  exact ⟨by decide, by decide⟩

/-- Witness for `claim1_idempotence` at concrete snapshots. -/
theorem claim1_witness :
    generatePatchPayload [("name"), ("metadata")] id true false
        resSelf resSelf = .ok ⟨[]⟩ ∧
    generateLotsPatchPayload lotSelf lotSelf = .ok [] ∧
    generateEntityTypePatchPayload etSelf etSelf = .ok [] := by
  refine ⟨claim1_idempotence.1 _ id true false resSelf ?_,
    claim1_idempotence.2.1 lotSelf ?_,
    claim1_idempotence.2.2 etSelf (by decide)⟩
  · intro md h
    injection h with h
    subst h
    exact ⟨by decide, by decide⟩
  · intro md h
    injection h with h
    subst h
    exact ⟨by decide, by decide⟩

/-- Claim C6: `adjust` with action ZERO and a non-`None` quantity raises
before any HTTP request is issued; with any other action and a missing or
non-positive quantity it likewise raises with no request issued; and with
action ADD and quantity `5.0` on a lot whose inventory on hand is `10.0`,
the single issued PATCH datum is an `inventoryOnHand` UPDATE whose
`new_value` encodes a delta of 5 (as the 14-decimal-place fixed-point string
`"5.00000000000000"`). -/
theorem claim6_adjust_validation :
    (∀ (server : String → Lot) (lotId : String) (q : Option DecNum)
        (d : Option String), q ≠ Option.none →
      adjust server lotId .zero q d = .raised []) ∧
    (∀ (server : String → Lot) (lotId : String) (a : LotAdjustmentAction)
        (q : Option DecNum) (d : Option String),
      a ≠ .zero → (q = Option.none ∨ ∃ x, q = Option.some x ∧ x.m ≤ 0) →
      adjust server lotId a q d = .raised []) ∧
    (∀ (server : String → Lot) (lotId : String),
      (server lotId).inventory_on_hand = Option.some ⟨100, 1⟩ →
      adjust server lotId .add (Option.some ⟨50, 1⟩) Option.none =
        .completed [.getLot lotId,
          .patchLot lotId
            [⟨Attr.plain ("inventoryOnHand"), .update,
              Option.some (.pStr (decRender ⟨100, 1⟩)),
              Option.some (.pStr (decRender (quantize14 ⟨50, 1⟩)))⟩]
            Option.none,
          .getLot lotId] ∧
      decRender (quantize14 ⟨50, 1⟩) = ("5.00000000000000")) := by
  refine ⟨?_, ?_, ?_⟩
  · intro server lotId q d hq
    obtain ⟨x, rfl⟩ := Option.ne_none_iff_exists'.mp hq
    rfl
  · intro server lotId a q d ha hq
    cases a with
    | zero => exact absurd rfl ha
    | add =>
        rcases hq with rfl | ⟨x, rfl, hx⟩
        · rfl
        · simp [adjust, quantityInvalid, hx]
    | subtract =>
        rcases hq with rfl | ⟨x, rfl, hx⟩
        · rfl
        · simp [adjust, quantityInvalid, hx]
    | set =>
        rcases hq with rfl | ⟨x, rfl, hx⟩
        · rfl
        · simp [adjust, quantityInvalid, hx]
  · intro server lotId h
    refine ⟨?_, by decide⟩
    simp [adjust, quantityInvalid, h]

/-- Witness for `claim6_adjust_validation` at concrete calls. -/
theorem claim6_witness :
    adjust lotServer ("L1") .zero (Option.some ⟨50, 1⟩) Option.none =
      .raised [] ∧
    adjust lotServer ("L1") .add (Option.some ⟨-10, 1⟩) Option.none =
      .raised [] ∧
    adjust lotServer ("L1") .add (Option.some ⟨50, 1⟩) Option.none =
      .completed [.getLot ("L1"),
        .patchLot ("L1")
          [⟨Attr.plain ("inventoryOnHand"), .update,
            Option.some (.pStr (decRender ⟨100, 1⟩)),
            Option.some (.pStr (decRender (quantize14 ⟨50, 1⟩)))⟩]
          Option.none,
        .getLot ("L1")] :=
  ⟨claim6_adjust_validation.1 lotServer ("L1") _ _ (by decide),
   claim6_adjust_validation.2.1 lotServer ("L1") .add _ _ (by decide)
     (Or.inr ⟨⟨-10, 1⟩, rfl, by decide⟩),
   (claim6_adjust_validation.2.2 lotServer ("L1") (by decide)).1⟩

/-- Claim C7: the per-operation field rule demands that an UPDATE carry both
`old_value` and `new_value`, but `parameter_validation_patch`'s update
branch emits an UPDATE datum carrying only `newValue`: at the concrete
failing input the emitted datum has `oldValue = None`.  (Every sibling
helper — unit, value, and data-column validation patches — does carry both,
so the claim captures the intent and this branch is a slip in the code.) -/
theorem claim7_update_missing_old_value :
    parameterValidationPatch paramValidA paramValidB =
      Option.some ⟨.update, ("validation"), Option.none,
        Option.some (.vList [⟨.nonEnum ("string"), Option.none, ("min=5")⟩]),
        Option.some ("1")⟩ ∧
    ∃ d, parameterValidationPatch paramValidA paramValidB = Option.some d ∧
      d.operation = PatchOperation.update ∧ d.oldValue = Option.none := by
  refine ⟨by decide, ?_⟩
  exact ⟨⟨.update, ("validation"), Option.none,
    Option.some (.vList [⟨.nonEnum ("string"), Option.none, ("min=5")⟩]),
    Option.some ("1")⟩, by decide, by decide, by decide⟩

theorem enumIds_contains (l : List EnumValidationValue) (i : String) :
    (((l.filter fun x => x.id.isSome).filterMap fun x => x.id).contains i) =
      (l.any fun y => y.id == Option.some i) := by
  induction l with
  | nil => rfl
  | cons a r ih =>
      cases ha : a.id with
      | none => simpa [ha] using ih
      | some j =>
          simp only [List.filter_cons, ha, Option.isSome_some, if_true,
            List.filterMap_cons, List.any_cons]
          simp only [List.contains_cons] at *
          rw [ih]
          have heq : (i == j) = (Option.some j == Option.some i) := by
            rcases eq_or_ne i j with rfl | hne
            · simp
            · have h1 : (i == j) = false := beq_eq_false_iff_ne.mpr hne
              have h2 : (Option.some j == Option.some i) = false :=
                beq_eq_false_iff_ne.mpr fun h => hne (Option.some.inj h).symm
              rw [h1, h2]
          rw [← heq]

theorem enumIds_mem (l : List EnumValidationValue) (i : String) :
    (decide (i ∈ ((l.filter fun x => x.id.isSome).filterMap fun x => x.id))) =
      (l.any fun y => y.id == Option.some i) := by
  have h := enumIds_contains l i
  simpa using h

/-- Claim C5, amended: the enum patch list of `generate_enum_patches`
consists of exactly one add entry per updated item with no id or an id
absent from the existing (non-`None`) ids, one delete entry per existing
item whose non-`None` id is absent from the updated ids, and one update
entry per updated item whose id is present among the existing ids —
*regardless of whether its text changed* (the text-change filter exists only
in the data-template collection's `_add_param_enums`, whose diff on an
unchanged pair is empty); on the spec's example the list is exactly one add
(text C), one delete (id 2) and one update (id 1, text A2). -/
theorem claim5_enum_patch_characterization :
    (∀ ex up : List EnumValidationValue,
      generateEnumPatches ex up =
        ((up.filter fun x =>
            match x.id with
            | Option.none => true
            | Option.some i => !(ex.any fun y => y.id == Option.some i)).map
          fun x => EnumPatch.add x.text) ++
        ((ex.filter fun x =>
            match x.id with
            | Option.none => false
            | Option.some i => !(up.any fun y => y.id == Option.some i)).map
          fun x => EnumPatch.del x.id) ++
        ((up.filter fun x =>
            match x.id with
            | Option.none => false
            | Option.some i => ex.any fun y => y.id == Option.some i).map
          fun x => EnumPatch.upd x.id x.text)) ∧
    generateEnumPatches
        [⟨Option.some ("1"), ("A"), Option.none⟩,
         ⟨Option.some ("2"), ("B"), Option.none⟩]
        [⟨Option.some ("1"), ("A2"), Option.none⟩,
         ⟨Option.none, ("C"), Option.none⟩] =
      [EnumPatch.add ("C"), EnumPatch.del (Option.some ("2")),
       EnumPatch.upd (Option.some ("1")) ("A2")] ∧
    addParamEnumsDiff [⟨Option.some ("1"), ("A"), Option.none⟩]
        [⟨Option.some ("1"), ("A"), Option.none⟩] = [] := by
  refine ⟨fun ex up => ?_, by decide, by decide⟩
  have hnew : up.filter (fun x => x.id.isNone ||
        !(((ex.filter fun y => y.id.isSome).filterMap fun y => y.id).contains
          (x.id.getD ""))) =
      up.filter fun x =>
        match x.id with
        | Option.none => true
        | Option.some i => !(ex.any fun y => y.id == Option.some i) := by
    refine List.filter_congr fun x _ => ?_
    cases hx : x.id with
    | none => simp [hx]
    | some i => simp [hx, enumIds_mem]
  have hdel : ex.filter (fun x => x.id.isSome &&
        !(((up.filter fun y => y.id.isSome).filterMap fun y => y.id).contains
          (x.id.getD ""))) =
      ex.filter fun x =>
        match x.id with
        | Option.none => false
        | Option.some i => !(up.any fun y => y.id == Option.some i) := by
    refine List.filter_congr fun x _ => ?_
    cases hx : x.id with
    | none => simp [hx]
    | some i => simp [hx, enumIds_mem]
  have hupd : up.filter (fun x => x.id.isSome &&
        ((ex.filter fun y => y.id.isSome).filterMap fun y => y.id).contains
          (x.id.getD "")) =
      up.filter fun x =>
        match x.id with
        | Option.none => false
        | Option.some i => ex.any fun y => y.id == Option.some i := by
    refine List.filter_congr fun x _ => ?_
    cases hx : x.id with
    | none => simp [hx]
    | some i => simp [hx, enumIds_mem]
  show ((up.filter _).map _) ++ ((ex.filter _).map _) ++ ((up.filter _).map _) = _
  rw [hnew, hdel, hupd]

theorem exBind_ok_of_all {α β : Type} {l : List α}
    {f : α → Except Unit (List β)} (h : ∀ a ∈ l, ∃ La, f a = .ok La) :
    ∃ L, exBind l f = .ok L := by
  induction l with
  | nil => exact ⟨[], rfl⟩
  | cons a r ih =>
      obtain ⟨La, hLa⟩ := h a (List.mem_cons_self a r)
      obtain ⟨L, hL⟩ := ih fun x hx => h x (List.mem_cons_of_mem a hx)
      exact ⟨La ++ L, by rw [exBind_cons, hLa, exceptBindOk, hL, exceptBindOk]⟩

theorem exMapM_getId_of_ents {l : List MetaElem}
    (h : ∀ x ∈ l, isEntElem x = true) :
    exMapM l MetaElem.getId = .ok (l.map fun x => x.idOf.getD "") :=
  exMapM_of_pointwise fun x hx => by
    cases x with
    | ent i => rfl
    | raw t => exact absurd (h _ hx) (by simp [isEntElem])

theorem alookup_mem {α : Type} {m : List (String × α)} {k : String} {v : α}
    (h : alookup m k = Option.some v) : ∃ k', (k', v) ∈ m := by
  unfold alookup at h
  cases hf : m.find? fun p => p.1 == k with
  | none => rw [hf] at h; cases h
  | some p =>
      obtain ⟨a, b⟩ := p
      rw [hf] at h
      injection h with h
      subst h
      exact ⟨a, List.mem_of_find?_eq_some hf⟩

theorem wfVal_list_all {l : List MetaElem}
    (h : wfVal (MetaValue.list l) = true) : ∀ x ∈ l, isEntElem x = true := by
  intro x hx
  have := List.all_eq_true.mp (by simpa [wfVal] using h)
  exact this x hx

theorem metaDeleteData_ok {k : String} {v : MetaValue}
    (hwf : wfVal v = true) : ∃ L, metaDeleteData k v = .ok L := by
  cases v with
  | str s => exact ⟨_, rfl⟩
  | int n => exact ⟨_, rfl⟩
  | flt d => exact ⟨_, rfl⟩
  | ent i => exact ⟨_, rfl⟩
  | list l =>
      simp only [metaDeleteData]
      rw [exMapM_getId_of_ents (wfVal_list_all hwf), exceptBindOk]
      cases l.map (fun x => x.idOf.getD "") with
      | nil => exact ⟨_, rfl⟩
      | cons a t => cases t with
        | nil => exact ⟨_, rfl⟩
        | cons b u => exact ⟨_, rfl⟩
  | mvNone => simp [wfVal] at hwf
  | other t => simp [wfVal] at hwf

theorem metaExistingIds_eq {v : MetaValue}
    (h : (∃ l, v = MetaValue.list l ∧ ∀ x ∈ l, isEntElem x = true) ∨
      ∃ i, v = MetaValue.ent i) :
    metaExistingIds v = .ok (metaIdsList v) := by
  rcases h with ⟨l, rfl, hl⟩ | ⟨i, rfl⟩
  · simp only [metaExistingIds, metaIdsList]
    exact exMapM_getId_of_ents hl
  · rfl

theorem metaListBranch_ok {k : String} {v : MetaValue} {l' : List MetaElem}
    (hv : (∃ l, v = MetaValue.list l ∧ ∀ x ∈ l, isEntElem x = true) ∨
      ∃ i, v = MetaValue.ent i)
    (hl' : ∀ x ∈ l', isEntElem x = true) :
    ∃ L, metaListBranch k v l' = .ok L := by
  unfold metaListBranch
  rw [metaExistingIds_eq hv, exceptBindOk, exMapM_getId_of_ents hl',
    exceptBindOk]
  dsimp only
  split
  · exact ⟨_, rfl⟩
  · split
    · exact ⟨_, rfl⟩
    · split
      · exact ⟨_, rfl⟩
      · exact ⟨_, rfl⟩

theorem metaChangedData_ok {k : String} {v v' : MetaValue}
    (hwfv : wfVal v = true) (hwfv' : wfVal v' = true)
    (hc : shapeCompat v v' = true) :
    ∃ L, metaChangedData k v v' = .ok L := by
  unfold metaChangedData
  by_cases he : mvEq v v' = true
  · rw [if_pos he]; exact ⟨[], rfl⟩
  · rw [if_neg he]
    cases v' with
    | str s => exact ⟨_, rfl⟩
    | int n => exact ⟨_, rfl⟩
    | flt d => exact ⟨_, rfl⟩
    | mvNone => simp [wfVal] at hwfv'
    | other t => simp [wfVal] at hwfv'
    | ent j =>
        cases v with
        | ent i => exact ⟨_, rfl⟩
        | str s => simp [shapeCompat] at hc
        | int n => simp [shapeCompat] at hc
        | flt d => simp [shapeCompat] at hc
        | list l => simp [shapeCompat] at hc
        | mvNone => simp [shapeCompat] at hc
        | other t => simp [shapeCompat] at hc
    | list l' =>
        have hd : metaChangedDispatch k v (MetaValue.list l') =
            metaListBranch k v l' := rfl
        rw [hd]
        refine metaListBranch_ok ?_ (wfVal_list_all hwfv')
        cases v with
        | list l => exact Or.inl ⟨l, rfl, wfVal_list_all hwfv⟩
        | ent i => exact Or.inr ⟨i, rfl⟩
        | str s => simp [shapeCompat] at hc
        | int n => simp [shapeCompat] at hc
        | flt d => simp [shapeCompat] at hc
        | mvNone => simp [shapeCompat] at hc
        | other t => simp [shapeCompat] at hc

theorem handleExisting_ok {up : List (String × MetaValue)} {k : String}
    {v : MetaValue} (hwf : wfVal v = true)
    (hup : ∀ p ∈ up, wfVal p.2 = true)
    (hc : ∀ v', alookup up k = Option.some v' → shapeCompat v v' = true) :
    ∃ L, handleExisting up k v = .ok L := by
  unfold handleExisting
  cases halk : alookup up k with
  | none => exact metaDeleteData_ok hwf
  | some v' =>
      have hwf' : wfVal v' = true := by
        obtain ⟨k', hmem⟩ := alookup_mem halk
        exact hup (k', v') hmem
      cases v' with
      | mvNone => simp [wfVal] at hwf'
      | str s => exact metaChangedData_ok hwf hwf' (hc _ halk)
      | int n => exact metaChangedData_ok hwf hwf' (hc _ halk)
      | flt d => exact metaChangedData_ok hwf hwf' (hc _ halk)
      | ent j => exact metaChangedData_ok hwf hwf' (hc _ halk)
      | list l' => exact metaChangedData_ok hwf hwf' (hc _ halk)
      | other t => exact metaChangedData_ok hwf hwf' (hc _ halk)

theorem handleNew_ok {k : String} {v : MetaValue}
    (hwf : wfVal v = true) : ∃ L, handleNew k v = .ok L := by
  cases v with
  | str s => exact ⟨_, rfl⟩
  | int n => exact ⟨_, rfl⟩
  | flt d => exact ⟨_, rfl⟩
  | ent i => exact ⟨_, rfl⟩
  | list l =>
      simp only [handleNew]
      rw [exMapM_getId_of_ents (wfVal_list_all hwf), exceptBindOk]
      cases l.map (fun x => x.idOf.getD "") with
      | nil => exact ⟨_, rfl⟩
      | cons a t => cases t with
        | nil => exact ⟨_, rfl⟩
        | cons b u => exact ⟨_, rfl⟩
  | mvNone => simp [wfVal] at hwf
  | other t => simp [wfVal] at hwf

/-- Claim C2, amended: the metadata diff generator *can* raise — a `None` or
non-id-bearing value reaching the entity fallback of the delete or new-key
pass, a non-entity element inside a list, or a changed key whose existing
value has no id while the updated value is a list or single entity, all
raise `AttributeError` (`claim2_counterexample` shows a concrete raise).  It
never raises when every value of both mappings is a well-formed
`MetadataItem` (scalar, entity, or list of entities) and every key present
in both mappings has shape-compatible values. -/
theorem claim2_metadata_diff_safety :
    ∀ (ex up : List (String × MetaValue)),
      (∀ p ∈ ex, wfVal p.2 = true) →
      (∀ p ∈ up, wfVal p.2 = true) →
      (∀ p ∈ ex, ∀ v', alookup up p.1 = Option.some v' →
        shapeCompat p.2 v' = true) →
      ∃ L, metaDiff ex up = .ok L := by
  intro ex up hex hup hc
  obtain ⟨L1, h1⟩ := exBind_ok_of_all fun p hp =>
    handleExisting_ok (hex p hp) hup (hc p hp)
  obtain ⟨L2, h2⟩ := exBind_ok_of_all (l := up)
    (f := fun p => if (alookup ex p.1).isNone then handleNew p.1 p.2
      else .ok []) fun p hp => by
    cases halk : alookup ex p.1 with
    | none => simpa [halk] using handleNew_ok (hup p hp)
    | some w => exact ⟨[], by simp [halk]⟩
  exact ⟨L1 ++ L2, by unfold metaDiff; rw [h1, exceptBindOk, h2, exceptBindOk]⟩

/-- Claim C2, counterexample: deleting a metadata key whose existing value
is an explicit `None` reaches the entity fallback, whose `.id` access
raises — the diff generator does not silently skip unmodeled shapes. -/
theorem claim2_counterexample :
    metaDiff [(("k"), MetaValue.mvNone)] [] = .error () := by decide

/-- Witness for `claim2_metadata_diff_safety` at concrete mappings. -/
theorem claim2_witness : ∃ L, metaDiff exMetaW upMetaW = .ok L :=
  claim2_metadata_diff_safety exMetaW upMetaW (by decide) (by decide) (by
    intro p hp v' h
    have hp' : p = (("a"), MetaValue.ent ("E1")) := by
      simpa [exMetaW] using hp
    subst hp'
    have hl : alookup upMetaW ("a") =
        Option.some (MetaValue.list [.ent ("E1"), .ent ("E2")]) := rfl
    rw [hl] at h
    injection h with h
    subst h
    decide)

theorem singleton_attr {k : String} {x : PatchDatum} {L : List PatchDatum}
    (hx : x.attr = Attr.meta k) (h : [x] = L) :
    ∀ d ∈ L, d.attr = Attr.meta k := by
  subst h
  intro d hd
  rw [List.mem_singleton] at hd
  subst hd
  exact hx

theorem metaDeleteData_attr {k : String} {v : MetaValue}
    {L : List PatchDatum} (h : metaDeleteData k v = .ok L) :
    ∀ d ∈ L, d.attr = Attr.meta k := by
  cases v with
  | str s => exact singleton_attr rfl (Except.ok.inj h)
  | int n => exact singleton_attr rfl (Except.ok.inj h)
  | flt d0 => exact singleton_attr rfl (Except.ok.inj h)
  | ent i => exact singleton_attr rfl (Except.ok.inj h)
  | mvNone => exact absurd h fun hh => Except.noConfusion hh
  | other t => exact absurd h fun hh => Except.noConfusion hh
  | list l =>
      simp only [metaDeleteData] at h
      cases hm : exMapM l MetaElem.getId with
      | error e => cases e; rw [hm, exceptBindErr] at h; cases h
      | ok ids =>
          rw [hm, exceptBindOk] at h
          cases ids with
          | nil =>
              have h0 : ([] : List PatchDatum) = L := Except.ok.inj h
              subst h0
              intro d hd
              cases hd
          | cons i t => cases t with
            | nil => exact singleton_attr rfl (Except.ok.inj h)
            | cons j u => exact singleton_attr rfl (Except.ok.inj h)

theorem metaListBranch_attr {k : String} {v : MetaValue} {l' : List MetaElem}
    {L : List PatchDatum} (h : metaListBranch k v l' = .ok L) :
    ∀ d ∈ L, d.attr = Attr.meta k := by
  unfold metaListBranch at h
  cases hm : metaExistingIds v with
  | error e => cases e; rw [hm, exceptBindErr] at h; cases h
  | ok s =>
      rw [hm, exceptBindOk] at h
      cases hm2 : exMapM l' MetaElem.getId with
      | error e => cases e; rw [hm2, exceptBindErr] at h; cases h
      | ok ids =>
          rw [hm2, exceptBindOk] at h
          dsimp only at h
          split at h
          · have h0 : ([] : List PatchDatum) = L := Except.ok.inj h
            subst h0
            intro d hd
            cases hd
          · split at h
            · exact singleton_attr rfl (Except.ok.inj h)
            · split at h
              · exact singleton_attr rfl (Except.ok.inj h)
              · exact singleton_attr rfl (Except.ok.inj h)

theorem metaChangedDispatch_attr {k : String} {v v' : MetaValue}
    {L : List PatchDatum} (h : metaChangedDispatch k v v' = .ok L) :
    ∀ d ∈ L, d.attr = Attr.meta k := by
  cases v' with
  | str s => exact singleton_attr rfl (Except.ok.inj h)
  | int n => exact singleton_attr rfl (Except.ok.inj h)
  | flt d0 => exact singleton_attr rfl (Except.ok.inj h)
  | list l' => exact metaListBranch_attr h
  | ent j =>
      simp only [metaChangedDispatch] at h
      cases hm : v.getId with
      | error e => cases e; rw [hm, exceptBindErr] at h; cases h
      | ok i => rw [hm, exceptBindOk] at h; exact singleton_attr rfl (Except.ok.inj h)
  | mvNone =>
      simp only [metaChangedDispatch] at h
      cases hm : v.getId with
      | error e => cases e; rw [hm, exceptBindErr] at h; cases h
      | ok i =>
          rw [hm, exceptBindOk] at h
          rw [show (MetaValue.mvNone).getId = Except.error () from rfl,
            exceptBindErr] at h
          cases h
  | other t =>
      simp only [metaChangedDispatch] at h
      cases hm : v.getId with
      | error e => cases e; rw [hm, exceptBindErr] at h; cases h
      | ok i =>
          rw [hm, exceptBindOk] at h
          rw [show (MetaValue.other t).getId = Except.error () from rfl,
            exceptBindErr] at h
          cases h

theorem metaChangedData_attr {k : String} {v v' : MetaValue}
    {L : List PatchDatum} (h : metaChangedData k v v' = .ok L) :
    ∀ d ∈ L, d.attr = Attr.meta k := by
  unfold metaChangedData at h
  by_cases he : mvEq v v' = true
  · rw [if_pos he] at h
    have h0 : ([] : List PatchDatum) = L := Except.ok.inj h
    subst h0
    intro d hd
    cases hd
  · rw [if_neg he] at h
    exact metaChangedDispatch_attr h

theorem handleExisting_attr {up : List (String × MetaValue)} {k : String}
    {v : MetaValue} {L : List PatchDatum}
    (h : handleExisting up k v = .ok L) :
    ∀ d ∈ L, d.attr = Attr.meta k := by
  unfold handleExisting at h
  cases halk : alookup up k with
  | none => rw [halk] at h; exact metaDeleteData_attr h
  | some v' =>
      rw [halk] at h
      cases v' with
      | mvNone => exact metaDeleteData_attr h
      | str s => exact metaChangedData_attr h
      | int n => exact metaChangedData_attr h
      | flt d0 => exact metaChangedData_attr h
      | ent j => exact metaChangedData_attr h
      | list l' => exact metaChangedData_attr h
      | other t => exact metaChangedData_attr h

theorem handleNew_attr {k : String} {v : MetaValue} {L : List PatchDatum}
    (h : handleNew k v = .ok L) : ∀ d ∈ L, d.attr = Attr.meta k := by
  cases v with
  | str s => exact singleton_attr rfl (Except.ok.inj h)
  | int n => exact singleton_attr rfl (Except.ok.inj h)
  | flt d0 => exact singleton_attr rfl (Except.ok.inj h)
  | ent i => exact singleton_attr rfl (Except.ok.inj h)
  | mvNone => exact absurd h fun hh => Except.noConfusion hh
  | other t => exact absurd h fun hh => Except.noConfusion hh
  | list l =>
      simp only [handleNew] at h
      cases hm : exMapM l MetaElem.getId with
      | error e => cases e; rw [hm, exceptBindErr] at h; cases h
      | ok ids =>
          rw [hm, exceptBindOk] at h
          cases ids with
          | nil =>
              have h0 : ([] : List PatchDatum) = L := Except.ok.inj h
              subst h0
              intro d hd
              cases hd
          | cons i t => cases t with
            | nil => exact singleton_attr rfl (Except.ok.inj h)
            | cons j u => exact singleton_attr rfl (Except.ok.inj h)

theorem metaDiff_attr {ex up : List (String × MetaValue)}
    {L : List PatchDatum} (h : metaDiff ex up = .ok L) :
    ∀ d ∈ L, ∃ kk, d.attr = Attr.meta kk := by
  unfold metaDiff at h
  cases h1 : exBind ex (fun p => handleExisting up p.1 p.2) with
  | error e => cases e; rw [h1, exceptBindErr] at h; cases h
  | ok p1 =>
      rw [h1, exceptBindOk] at h
      cases h2 : exBind up (fun p =>
          if (alookup ex p.1).isNone then handleNew p.1 p.2 else .ok []) with
      | error e => cases e; rw [h2, exceptBindErr] at h; cases h
      | ok p2 =>
          rw [h2, exceptBindOk] at h
          have h0 : p1 ++ p2 = L := Except.ok.inj h
          subst h0
          intro d hd
          rcases List.mem_append.mp hd with h3 | h3
          · obtain ⟨p, hp, Lp, hLp, hdp⟩ := exBind_mem h1 h3
            exact ⟨p.1, handleExisting_attr hLp d hdp⟩
          · obtain ⟨p, hp, Lp, hLp, hdp⟩ := exBind_mem h2 h3
            by_cases hn : (alookup ex p.1).isNone = true
            · rw [if_pos hn] at hLp
              exact ⟨p.1, handleNew_attr hLp d hdp⟩
            · rw [if_neg hn] at hLp
              have h4 : ([] : List PatchDatum) = Lp := Except.ok.inj hLp
              subst h4
              cases hdp

theorem attrStep_meta_attr {aliasOf : String → String}
    {genMeta stringify : Bool} {ex up : GRes} {a : String}
    {La : List PatchDatum}
    (hma : ((a == ("metadata")) && genMeta) = true)
    (h : attrStep aliasOf genMeta stringify ex up a = .ok La) :
    ∀ d ∈ La, ∃ kk, d.attr = Attr.meta kk := by
  unfold attrStep at h
  rw [if_pos hma] at h
  dsimp only at h
  exact metaDiff_attr h

theorem attrStep_generic {aliasOf : String → String}
    {genMeta stringify : Bool} {ex up : GRes} {a : String}
    (hna : ((a == ("metadata")) && genMeta) = false) :
    attrStep aliasOf genMeta stringify ex up a =
      .ok (attrGeneric (aliasOf a) stringify (getAttr ex a) (getAttr up a)) := by
  unfold attrStep
  rw [hna]
  rfl

theorem attrGenericCore_attr (alias0 : String) (st : Bool)
    (o n : Option PValue) :
    ∀ d ∈ attrGenericCore alias0 st o n, d.attr = Attr.plain alias0 := by
  intro d hd
  cases o with
  | none =>
      cases n with
      | none => cases hd
      | some nv =>
          simp only [attrGenericCore] at hd
          rw [List.mem_singleton] at hd
          subst hd
          rfl
  | some ov =>
      simp only [attrGenericCore] at hd
      split at hd
      · cases hd
      · rw [List.mem_singleton] at hd
        subst hd
        rfl

theorem attrGeneric_attr (alias0 : String) (st : Bool) (o n : Option PValue) :
    ∀ d ∈ attrGeneric alias0 st o n, d.attr = Attr.plain alias0 := by
  intro d hd
  unfold attrGeneric at hd
  dsimp only at hd
  exact attrGenericCore_attr alias0 st _ _ d hd

theorem attrGenericCore_ent {alias0 : String} {o n : Option PValue}
    (ho : optEntShaped o) (hn : optEntShaped n) :
    ∀ d ∈ attrGenericCore alias0 false o n, entShaped d := by
  rcases ho with rfl | ⟨i, rfl⟩ <;> rcases hn with rfl | ⟨j, rfl⟩ <;>
    intro d hd
  · cases hd
  · simp [attrGenericCore] at hd
    subst hd
    exact ⟨Or.inl rfl, Or.inr ⟨j, rfl⟩⟩
  · simp [attrGenericCore, optPvEq] at hd
    subst hd
    exact ⟨Or.inr ⟨i, rfl⟩, Or.inl rfl⟩
  · by_cases hij : optPvEq (Option.some (PValue.pEnt i))
        (Option.some (PValue.pEnt j)) = true
    · simp [attrGenericCore, hij] at hd
    · simp [attrGenericCore, hij] at hd
      subst hd
      exact ⟨Or.inr ⟨i, rfl⟩, Or.inr ⟨j, rfl⟩⟩

theorem attrGeneric_ent {alias0 : String} {o n : Option PValue}
    (ho : optEntShaped o) (hn : optEntShaped n) :
    ∀ d ∈ attrGeneric alias0 false o n, entShaped d := by
  intro d hd
  unfold attrGeneric at hd
  dsimp only at hd
  by_cases h1 : (o.isNone && (n.map pvEmptyContainer).getD false) = true
  · rw [if_pos h1] at hd
    exact attrGenericCore_ent ho (Or.inl rfl) d hd
  · rw [if_neg h1] at hd
    by_cases h2 : ((o.map pvEmptyContainer).getD false && n.isNone) = true
    · rw [if_pos h2] at hd
      exact attrGenericCore_ent (Or.inl rfl) hn d hd
    · rw [if_neg h2] at hd
      exact attrGenericCore_ent ho hn d hd

theorem lots_base_shape {ex up : Lot} {base : List PatchDatum}
    (h : genData lotsUpdatable lotsAlias true false (lotToRes ex)
      (lotToRes up) = .ok base) :
    ∀ d ∈ base, d.attr = Attr.plain ("StorageLocation") → entShaped d := by
  intro d hd
  unfold genData at h
  obtain ⟨a, ha, La, hLa, hdLa⟩ := exBind_mem h hd
  simp only [lotsUpdatable, List.mem_cons, List.not_mem_nil, or_false] at ha
  rcases ha with rfl | rfl | rfl | rfl | rfl | rfl | rfl | rfl | rfl | rfl
  · intro hattr
    obtain ⟨kk, hkk⟩ := attrStep_meta_attr (by decide) hLa d hdLa
    rw [hkk] at hattr
    exact Attr.noConfusion hattr
  · intro _
    rw [attrStep_generic (by decide)] at hLa
    have h0 := Except.ok.inj hLa
    subst h0
    refine attrGeneric_ent ?_ ?_ d hdLa
    · rw [show getAttr (lotToRes ex) ("storage_location") =
          ex.storage_location.map PValue.pEnt from rfl]
      cases ex.storage_location with
      | none => exact Or.inl rfl
      | some s => exact Or.inr ⟨s, rfl⟩
    · rw [show getAttr (lotToRes up) ("storage_location") =
          up.storage_location.map PValue.pEnt from rfl]
      cases up.storage_location with
      | none => exact Or.inl rfl
      | some s => exact Or.inr ⟨s, rfl⟩
  · intro hattr
    rw [attrStep_generic (by decide)] at hLa
    have h0 := Except.ok.inj hLa
    subst h0
    rw [attrGeneric_attr _ _ _ _ d hdLa] at hattr
    exact absurd hattr (by decide)
  · intro hattr
    rw [attrStep_generic (by decide)] at hLa
    have h0 := Except.ok.inj hLa
    subst h0
    rw [attrGeneric_attr _ _ _ _ d hdLa] at hattr
    exact absurd hattr (by decide)
  · intro hattr
    rw [attrStep_generic (by decide)] at hLa
    have h0 := Except.ok.inj hLa
    subst h0
    rw [attrGeneric_attr _ _ _ _ d hdLa] at hattr
    exact absurd hattr (by decide)
  · intro hattr
    rw [attrStep_generic (by decide)] at hLa
    have h0 := Except.ok.inj hLa
    subst h0
    rw [attrGeneric_attr _ _ _ _ d hdLa] at hattr
    exact absurd hattr (by decide)
  · intro hattr
    rw [attrStep_generic (by decide)] at hLa
    have h0 := Except.ok.inj hLa
    subst h0
    rw [attrGeneric_attr _ _ _ _ d hdLa] at hattr
    exact absurd hattr (by decide)
  · intro hattr
    rw [attrStep_generic (by decide)] at hLa
    have h0 := Except.ok.inj hLa
    subst h0
    rw [attrGeneric_attr _ _ _ _ d hdLa] at hattr
    exact absurd hattr (by decide)
  · intro hattr
    rw [attrStep_generic (by decide)] at hLa
    have h0 := Except.ok.inj hLa
    subst h0
    rw [attrGeneric_attr _ _ _ _ d hdLa] at hattr
    exact absurd hattr (by decide)
  · intro hattr
    rw [attrStep_generic (by decide)] at hLa
    have h0 := Except.ok.inj hLa
    subst h0
    rw [attrGeneric_attr _ _ _ _ d hdLa] at hattr
    exact absurd hattr (by decide)

theorem slFix_ok {d : PatchDatum}
    (h : d.attr = Attr.plain ("StorageLocation") → entShaped d) :
    ∃ d', slFix d = .ok d' ∧
      (d'.attr = d.attr ∨ d'.attr = Attr.plain ("storageLocation")) := by
  by_cases hsl : (d.attr == Attr.plain ("StorageLocation")) = true
  · obtain ⟨ho, hn⟩ := h (eq_of_beq hsl)
    unfold slFix
    rw [if_pos hsl]
    dsimp only
    rcases hn with hnn | ⟨j, hnj⟩ <;> rcases ho with hon | ⟨i, hoi⟩
    · rw [hnn, hon]
      exact ⟨⟨Attr.plain ("storageLocation"), d.operation,
        Option.none, Option.none⟩, rfl, Or.inr rfl⟩
    · rw [hnn, hoi]
      exact ⟨⟨Attr.plain ("storageLocation"), d.operation,
        Option.some (.pStr i), Option.none⟩, rfl, Or.inr rfl⟩
    · rw [hnj, hon]
      exact ⟨⟨Attr.plain ("storageLocation"), d.operation,
        Option.none, Option.some (.pStr j)⟩, rfl, Or.inr rfl⟩
    · rw [hnj, hoi]
      exact ⟨⟨Attr.plain ("storageLocation"), d.operation,
        Option.some (.pStr i), Option.some (.pStr j)⟩, rfl, Or.inr rfl⟩
  · refine ⟨d, ?_, Or.inl rfl⟩
    unfold slFix
    rw [if_neg hsl]

theorem exMapM_prop {α β : Type} {l : List α} {f : α → Except Unit β}
    {P : β → Prop} (h : ∀ a ∈ l, ∃ b, f a = .ok b ∧ P b) :
    ∃ bs, exMapM l f = .ok bs ∧ ∀ b ∈ bs, P b := by
  induction l with
  | nil => exact ⟨[], rfl, fun b hb => absurd hb (List.not_mem_nil b)⟩
  | cons a r ih =>
      obtain ⟨b, hb, hPb⟩ := h a (List.mem_cons_self a r)
      obtain ⟨bs, hbs, hPs⟩ := ih fun x hx => h x (List.mem_cons_of_mem a hx)
      refine ⟨b :: bs, ?_, ?_⟩
      · rw [exMapM_cons, hb, exceptBindOk, hbs, exceptBindOk]
      · intro c hc
        rcases List.mem_cons.mp hc with rfl | hc'
        · exact hPb
        · exact hPs c hc'

theorem contains_of_mem {α : Type} [BEq α] [LawfulBEq α] {l : List α} {a : α}
    (h : a ∈ l) : l.contains a = true := by
  induction l with
  | nil => cases h
  | cons b t ih =>
      rw [List.contains_cons]
      rcases List.mem_cons.mp h with rfl | h'
      · simp
      · rw [ih h']
        simp

theorem find?_seq_of_mem_nodup {l : List ParameterValue}
    (hnd : (l.map fun x => x.sequence).Nodup) {x : ParameterValue}
    (hx : x ∈ l) :
    (l.find? fun y => y.sequence == x.sequence) = Option.some x := by
  induction l with
  | nil => cases hx
  | cons p r ih =>
      rcases List.mem_cons.mp hx with rfl | hr
      · exact List.find?_cons_of_pos _ (by simp)
      · have hk : p.sequence ≠ x.sequence := by
          intro hkk
          have hm : x.sequence ∈ r.map fun y => y.sequence :=
            List.mem_map_of_mem _ hr
          rw [List.map_cons, List.nodup_cons] at hnd
          exact hnd.1 (hkk ▸ hm)
        rw [List.map_cons, List.nodup_cons] at hnd
        rw [List.find?_cons_of_neg _ (by simp [hk])]
        exact ih hnd.2 hr

theorem parameterUnitPatches_self_unit {p q : ParameterValue}
    (h : p.unit = q.unit) : parameterUnitPatches p q = Option.none := by
  unfold parameterUnitPatches
  rw [h, if_pos (by simp : (q.unit == q.unit) = true)]

theorem parameterValuePatches_self {p q : ParameterValue}
    (h : p.value = q.value) : parameterValuePatches p q = Option.none := by
  unfold parameterValuePatches
  rw [h, if_pos (by simp : (q.value == q.value) = true)]

theorem parameterValidationPatch_self {p q : ParameterValue}
    (h : p.validation = q.validation) :
    parameterValidationPatch p q = Option.none := by
  unfold parameterValidationPatch
  rw [h]
  dsimp only
  rw [if_pos (by simp :
    (clearEnumValue q.validation == clearEnumValue q.validation) = true)]

theorem parameterValuePatches_update {p q : ParameterValue} {v v' : PValue}
    (hv : p.value = Option.some v) (hv' : q.value = Option.some v')
    (hne : v ≠ v') :
    parameterValuePatches p q =
      Option.some ⟨.update, ("value"), Option.some (.v v),
        Option.some (.v v'), q.sequence⟩ := by
  unfold parameterValuePatches
  rw [hv, hv']
  rw [if_neg (by simp [hne] : ¬((Option.some v == Option.some v') = true))]
  dsimp only
  rw [if_pos (by simp [bne, hne] : (v != v') = true)]

theorem handleMatchedParam_unchanged {initial : List ParameterValue}
    {x : ParameterValue}
    (hfind : (initial.find? fun y => y.sequence == x.sequence) =
      Option.some x)
    (hguard : enumGuard x.validation = false) :
    handleMatchedParam initial x = .ok ([], []) := by
  unfold handleMatchedParam
  rw [hfind]
  dsimp only
  rw [exceptBindOk]
  rw [parameterUnitPatches_self_unit rfl, parameterValuePatches_self rfl,
    parameterValidationPatch_self rfl, hguard]
  rfl

theorem handleMatchedParam_value {initial : List ParameterValue}
    {p0 q0 : ParameterValue} {v v' : PValue}
    (hfind : (initial.find? fun y => y.sequence == q0.sequence) =
      Option.some p0)
    (hunit : p0.unit = q0.unit) (hvalid : p0.validation = q0.validation)
    (hv : p0.value = Option.some v) (hv' : q0.value = Option.some v')
    (hne : v ≠ v') (hguard : enumGuard q0.validation = false) :
    handleMatchedParam initial q0 =
      .ok ([⟨.update, ("value"), Option.some (.v v), Option.some (.v v'),
            q0.sequence⟩], []) := by
  unfold handleMatchedParam
  rw [hfind]
  dsimp only
  rw [exceptBindOk]
  rw [parameterUnitPatches_self_unit hunit,
    parameterValuePatches_update hv hv' hne,
    parameterValidationPatch_self hvalid, hguard]
  rfl

theorem processMatchedParams_all_nil {initial ms : List ParameterValue}
    (h : ∀ q ∈ ms, handleMatchedParam initial q = .ok ([], [])) :
    processMatchedParams initial ms = .ok ([], []) := by
  induction ms with
  | nil => rfl
  | cons q rest ih =>
      simp only [processMatchedParams]
      rw [h q (List.mem_cons_self q rest), exceptBindOk]
      dsimp only
      rw [ih fun x hx => h x (List.mem_cons_of_mem q hx), exceptBindOk]
      rfl

theorem processMatchedParams_append (initial a b : List ParameterValue) :
    processMatchedParams initial (a ++ b) =
      Bind.bind (processMatchedParams initial a) fun r =>
        Bind.bind (processMatchedParams initial b) fun r' =>
          Except.ok (r.1 ++ r'.1, r.2 ++ r'.2) := by
  induction a with
  | nil =>
      rw [List.nil_append,
        show processMatchedParams initial [] = Except.ok ([], []) from rfl,
        exceptBindOk]
      cases h : processMatchedParams initial b with
      | error e => cases e; rfl
      | ok r => rfl
  | cons x t ih =>
      rw [List.cons_append]
      simp only [processMatchedParams]
      rw [ih]
      cases h1 : handleMatchedParam initial x with
      | error e => cases e; rfl
      | ok r =>
          obtain ⟨ps, es⟩ := r
          simp only [exceptBindOk]
          cases h2 : processMatchedParams initial t with
          | error e => cases e; rfl
          | ok r2 =>
              obtain ⟨ps2, es2⟩ := r2
              simp only [exceptBindOk]
              cases h3 : processMatchedParams initial b with
              | error e => cases e; rfl
              | ok r3 =>
                  simp only [exceptBindOk]
                  simp [List.append_assoc]

theorem mem_option_toList {α : Type} {o : Option α} {a : α}
    (h : a ∈ o.toList) : o = Option.some a := by
  cases o with
  | none => cases h
  | some b =>
      rw [show (Option.some b).toList = [b] from rfl, List.mem_singleton] at h
      subst h
      rfl

theorem parameterUnitPatches_attr {p q : ParameterValue} {d : PGPatchDatum}
    (h : parameterUnitPatches p q = Option.some d) : d.attr = ("unitId") := by
  unfold parameterUnitPatches at h
  split at h
  · cases h
  · split at h
    · cases h; rfl
    · cases h; rfl
    · split at h
      · cases h; rfl
      · cases h
    · cases h

theorem parameterValuePatches_attr {p q : ParameterValue} {d : PGPatchDatum}
    (h : parameterValuePatches p q = Option.some d) : d.attr = ("value") := by
  unfold parameterValuePatches at h
  split at h
  · cases h
  · split at h
    · cases h; rfl
    · cases h; rfl
    · split at h
      · cases h; rfl
      · cases h
    · cases h

theorem parameterValidationPatch_attr {p q : ParameterValue}
    {d : PGPatchDatum} (h : parameterValidationPatch p q = Option.some d) :
    d.attr = ("validation") := by
  unfold parameterValidationPatch at h
  dsimp only at h
  split at h
  · cases h
  · split at h
    · cases h; rfl
    · cases h; rfl
    · split at h
      · cases h; rfl
      · cases h
    · cases h

theorem dataColumnUnitPatches_attr {p q : DataColumnValue} {d : DTPatchDatum}
    (h : dataColumnUnitPatches p q = Option.some d) : d.attr = ("unit") := by
  unfold dataColumnUnitPatches at h
  split at h
  · cases h
  · split at h
    · cases h; rfl
    · cases h; rfl
    · split at h
      · cases h; rfl
      · cases h
    · cases h

theorem paramPatches_toList_attrs (p q : ParameterValue) :
    ∀ d ∈ (parameterUnitPatches p q).toList ++
      (parameterValuePatches p q).toList ++
      (parameterValidationPatch p q).toList,
      d.attr = ("unitId") ∨ d.attr = ("value") ∨ d.attr = ("validation") := by
  intro d hd
  rcases List.mem_append.mp hd with h1 | h1
  · rcases List.mem_append.mp h1 with h2 | h2
    · exact Or.inl (parameterUnitPatches_attr (mem_option_toList h2))
    · exact Or.inr (Or.inl (parameterValuePatches_attr (mem_option_toList h2)))
  · exact Or.inr (Or.inr (parameterValidationPatch_attr (mem_option_toList h1)))

theorem handleMatchedParam_attrs {initial : List ParameterValue}
    {q : ParameterValue} {ps : List PGPatchDatum}
    {es : List (Option String × List EnumPatch)}
    (h : handleMatchedParam initial q = .ok (ps, es)) :
    ∀ d ∈ ps, d.attr = ("unitId") ∨ d.attr = ("value") ∨
      d.attr = ("validation") := by
  unfold handleMatchedParam at h
  cases hf : initial.find? fun x => x.sequence == q.sequence with
  | none =>
      rw [hf] at h
      dsimp only at h
      rw [exceptBindErr] at h
      cases h
  | some p =>
      rw [hf] at h
      dsimp only at h
      rw [exceptBindOk] at h
      by_cases hg : enumGuard q.validation = true
      · rw [if_pos hg] at h
        cases he : enumPairPatches p.validation q.validation with
        | error e => cases e; rw [he, exceptBindErr] at h; cases h
        | ok es' =>
            rw [he, exceptBindOk] at h
            have h3 := Except.ok.inj h
            injection h3 with hps hes
            intro d hd
            rw [← hps] at hd
            exact paramPatches_toList_attrs p q d hd
      · rw [if_neg hg] at h
        have h3 := Except.ok.inj h
        injection h3 with hps hes
        intro d hd
        rw [← hps] at hd
        exact paramPatches_toList_attrs p q d hd

theorem processMatchedParams_attrs {initial ms : List ParameterValue}
    {ps : List PGPatchDatum} {es : List (Option String × List EnumPatch)}
    (h : processMatchedParams initial ms = .ok (ps, es)) :
    ∀ d ∈ ps, d.attr = ("unitId") ∨ d.attr = ("value") ∨
      d.attr = ("validation") := by
  induction ms generalizing ps es with
  | nil =>
      rw [show processMatchedParams initial [] = Except.ok ([], [])
        from rfl] at h
      have h3 := Except.ok.inj h
      injection h3 with hps hes
      intro d hd
      rw [← hps] at hd
      cases hd
  | cons q rest ih =>
      simp only [processMatchedParams] at h
      cases h1 : handleMatchedParam initial q with
      | error e => cases e; rw [h1, exceptBindErr] at h; cases h
      | ok r =>
          obtain ⟨ps1, es1⟩ := r
          rw [h1] at h
          simp only [exceptBindOk] at h
          cases h2 : processMatchedParams initial rest with
          | error e => cases e; rw [h2, exceptBindErr] at h; cases h
          | ok r2 =>
              obtain ⟨ps2, es2⟩ := r2
              rw [h2] at h
              simp only [exceptBindOk] at h
              have h3 := Except.ok.inj h
              injection h3 with hps hes
              intro d hd
              rw [← hps] at hd
              rcases List.mem_append.mp hd with hm | hm
              · exact handleMatchedParam_attrs h1 d hm
              · exact ih h2 d hm

theorem dcGroup_shape (X : List DTPatchDatum) (s : Option String)
    (o : Option DTPatchDatum)
    (hu : ∀ t, o = Option.some t → t.attr = ("unit")) :
    ∀ d ∈ (if X.isEmpty then [] else
        [DCPatch.general ⟨("datacolumn"), X, s⟩]) ++ o.toList.map DCPatch.dt,
      (∃ g, d = DCPatch.general g) ∨
      (∃ t, d = DCPatch.dt t ∧ t.attr = ("unit")) := by
  intro d hd
  rcases List.mem_append.mp hd with h1 | h1
  · left
    by_cases he : X.isEmpty = true
    · rw [if_pos he] at h1
      cases h1
    · rw [if_neg he] at h1
      rw [List.mem_singleton] at h1
      exact ⟨_, h1⟩
  · right
    rcases List.mem_map.mp h1 with ⟨t, ht, rfl⟩
    exact ⟨t, rfl, hu t (mem_option_toList ht)⟩

theorem handleMatchedColumn_shape {initial : List DataColumnValue}
    {q : DataColumnValue} {ps : List DCPatch}
    {es : List (Option String × List EnumPatch)}
    (h : handleMatchedColumn initial q = .ok (ps, es)) :
    ∀ d ∈ ps, (∃ g, d = DCPatch.general g) ∨
      (∃ t, d = DCPatch.dt t ∧ t.attr = ("unit")) := by
  unfold handleMatchedColumn at h
  cases hf : initial.find? fun x => x.sequence == q.sequence with
  | none =>
      rw [hf] at h
      dsimp only at h
      rw [exceptBindErr] at h
      cases h
  | some c =>
      rw [hf] at h
      dsimp only at h
      rw [exceptBindOk] at h
      by_cases hg : enumGuard q.validation = true
      · rw [if_pos hg] at h
        cases he : enumPairPatches c.validation q.validation with
        | error e => cases e; rw [he, exceptBindErr] at h; cases h
        | ok es' =>
            rw [he, exceptBindOk] at h
            have h3 := Except.ok.inj h
            injection h3 with hps hes
            intro d hd
            rw [← hps] at hd
            exact dcGroup_shape _ _ _
              (fun t ht => dataColumnUnitPatches_attr ht) d hd
      · rw [if_neg hg] at h
        have h3 := Except.ok.inj h
        injection h3 with hps hes
        intro d hd
        rw [← hps] at hd
        exact dcGroup_shape _ _ _
          (fun t ht => dataColumnUnitPatches_attr ht) d hd

theorem processMatchedColumns_shape {initial ms : List DataColumnValue}
    {ps : List DCPatch} {es : List (Option String × List EnumPatch)}
    (h : processMatchedColumns initial ms = .ok (ps, es)) :
    ∀ d ∈ ps, (∃ g, d = DCPatch.general g) ∨
      (∃ t, d = DCPatch.dt t ∧ t.attr = ("unit")) := by
  induction ms generalizing ps es with
  | nil =>
      rw [show processMatchedColumns initial [] = Except.ok ([], [])
        from rfl] at h
      have h3 := Except.ok.inj h
      injection h3 with hps hes
      intro d hd
      rw [← hps] at hd
      cases hd
  | cons q rest ih =>
      simp only [processMatchedColumns] at h
      cases h1 : handleMatchedColumn initial q with
      | error e => cases e; rw [h1, exceptBindErr] at h; cases h
      | ok r =>
          obtain ⟨ps1, es1⟩ := r
          rw [h1] at h
          simp only [exceptBindOk] at h
          cases h2 : processMatchedColumns initial rest with
          | error e => cases e; rw [h2, exceptBindErr] at h; cases h
          | ok r2 =>
              obtain ⟨ps2, es2⟩ := r2
              rw [h2] at h
              simp only [exceptBindOk] at h
              have h3 := Except.ok.inj h
              injection h3 with hps hes
              intro d hd
              rw [← hps] at hd
              rcases List.mem_append.mp hd with hm | hm
              · exact handleMatchedColumn_shape h1 d hm
              · exact ih h2 d hm

theorem exBind_filter {α β : Type} {l : List α} {f : α → Except Unit (List β)}
    {L : List β} (h : exBind l f = .ok L) (p : β → Bool) (g : α → List β)
    (hg : ∀ a ∈ l, ∀ La, f a = .ok La → La.filter p = g a) :
    L.filter p = (l.map g).flatten := by
  induction l generalizing L with
  | nil => cases h; rfl
  | cons a r ih =>
      obtain ⟨x, y, hx, hy, rfl⟩ := exBind_cons_ok h
      rw [List.filter_append, hg a (List.mem_cons_self a r) x hx,
        ih hy fun b hb Lb hLb => hg b (List.mem_cons_of_mem a hb) Lb hLb,
        List.map_cons, List.flatten_cons]

theorem flatten_map_nil {α β : Type} {l : List α} {g : α → List β}
    (h : ∀ a ∈ l, g a = []) : (l.map g).flatten = [] := by
  induction l with
  | nil => rfl
  | cons a r ih =>
      rw [List.map_cons, List.flatten_cons, h a (List.mem_cons_self a r),
        List.nil_append]
      exact ih fun x hx => h x (List.mem_cons_of_mem a hx)

theorem flatten_map_ite {α β : Type} (l : List α) (q : α → Bool) (c : List β)
    (h : l.countP q = 1) :
    (l.map fun a => if q a then c else []).flatten = c := by
  induction l with
  | nil => simp [List.countP_nil] at h
  | cons a r ih =>
      rw [List.map_cons, List.flatten_cons]
      by_cases hq : q a = true
      · rw [if_pos hq]
        rw [List.countP_cons, hq] at h
        simp only [if_true] at h
        have hr : r.countP q = 0 := by omega
        have hall := List.countP_eq_zero.mp hr
        rw [flatten_map_nil fun x hx => by
            rw [if_neg (by simpa using hall x hx)],
          List.append_nil]
      · rw [if_neg hq, List.nil_append]
        apply ih
        rw [List.countP_cons] at h
        simpa [hq] using h

theorem countP_keys_eq_one {α : Type} {m : List (String × α)} {k : String}
    (hnd : (m.map Prod.fst).Nodup) (hmem : ∃ v, (k, v) ∈ m) :
    m.countP (fun p => p.1 == k) = 1 := by
  obtain ⟨v, hv⟩ := hmem
  induction m with
  | nil => cases hv
  | cons a r ih =>
      rw [List.countP_cons]
      rw [List.map_cons, List.nodup_cons] at hnd
      rcases List.mem_cons.mp hv with rfl | hr
      · have h0 : r.countP (fun p => p.1 == k) = 0 :=
          List.countP_eq_zero.mpr fun p hp hpk =>
            hnd.1 (by
              rw [← beq_iff_eq.mp hpk]
              exact List.mem_map.mpr ⟨p, hp, rfl⟩)
        simp [h0]
      · have hak : (a.1 == k) = false := beq_eq_false_iff_ne.mpr fun he =>
          hnd.1 (he ▸ List.mem_map_of_mem Prod.fst hr)
        rw [hak]
        simpa using ih hnd.2 hr

theorem metaDiff_filter_key {ex up : List (String × MetaValue)} {k : String}
    {v : MetaValue} {L Lk : List PatchDatum}
    (hnd : (ex.map Prod.fst).Nodup) (hmem : (k, v) ∈ ex)
    (h : metaDiff ex up = .ok L)
    (hk : handleExisting up k v = .ok Lk) :
    L.filter (fun d => d.attr == Attr.meta k) = Lk := by
  have hg1 : ∀ p ∈ ex, ∀ La, handleExisting up p.1 p.2 = .ok La →
      La.filter (fun d => d.attr == Attr.meta k) =
        (if p.1 == k then Lk else []) := by
    intro p hp La hLa
    by_cases hpk : (p.1 == k) = true
    · rw [if_pos hpk]
      have hk' : p.1 = k := beq_iff_eq.mp hpk
      have ha1 := alookup_of_mem_nodup hnd hmem
      have ha2 := alookup_of_mem_nodup hnd (Prod.mk.eta ▸ hp :
        (p.1, p.2) ∈ ex)
      rw [hk', ha1] at ha2
      have hpv : p.2 = v := (Option.some.inj ha2).symm
      have hsame : handleExisting up k v = .ok La := by
        rw [← hk', ← hpv]; exact hLa
      rw [hk] at hsame
      have hLaLk : La = Lk := (Except.ok.inj hsame).symm
      subst hLaLk
      refine List.filter_eq_self.mpr fun d hd => ?_
      have := handleExisting_attr hLa d hd
      rw [hk'] at this
      exact beq_iff_eq.mpr this
    · rw [if_neg hpk]
      refine List.filter_eq_nil_iff.mpr fun d hd hdk => ?_
      have := handleExisting_attr hLa d hd
      rw [this] at hdk
      exact hpk (beq_iff_eq.mpr (Attr.meta.inj (beq_iff_eq.mp hdk)))
  have hg2 : ∀ p ∈ up, ∀ La,
      (if (alookup ex p.1).isNone then handleNew p.1 p.2
        else Except.ok []) = .ok La →
      La.filter (fun d => d.attr == Attr.meta k) = [] := by
    intro p hp La hLa
    cases halk : alookup ex p.1 with
    | some w =>
        rw [halk] at hLa
        simp only [Option.isNone_some, Bool.false_eq_true, if_false] at hLa
        have h0 : ([] : List PatchDatum) = La := Except.ok.inj hLa
        subst h0
        rfl
    | none =>
        rw [halk] at hLa
        simp only [Option.isNone_none, if_true] at hLa
        refine List.filter_eq_nil_iff.mpr fun d hd hdk => ?_
        have hattr := handleNew_attr hLa d hd
        rw [hattr] at hdk
        have hp1k : p.1 = k := Attr.meta.inj (beq_iff_eq.mp hdk)
        rw [hp1k, alookup_of_mem_nodup hnd hmem] at halk
        cases halk
  unfold metaDiff at h
  cases h1 : exBind ex (fun p => handleExisting up p.1 p.2) with
  | error e => cases e; rw [h1, exceptBindErr] at h; cases h
  | ok L1 =>
      rw [h1, exceptBindOk] at h
      cases h2 : exBind up (fun p =>
          if (alookup ex p.1).isNone then handleNew p.1 p.2
          else Except.ok []) with
      | error e => cases e; rw [h2, exceptBindErr] at h; cases h
      | ok L2 =>
          rw [h2, exceptBindOk] at h
          have hL : L1 ++ L2 = L := Except.ok.inj h
          subst hL
          rw [List.filter_append,
            exBind_filter h1 (fun d => d.attr == Attr.meta k)
              (fun p => if p.1 == k then Lk else []) hg1,
            exBind_filter h2 (fun d => d.attr == Attr.meta k)
              (fun _ => []) hg2,
            flatten_map_ite ex _ Lk (countP_keys_eq_one hnd ⟨v, hmem⟩),
            flatten_map_nil fun a _ => rfl, List.append_nil]

theorem metaListBranch_eq {k : String} {v : MetaValue} {l' : List MetaElem}
    (hv : (∃ l, v = MetaValue.list l ∧ ∀ x ∈ l, isEntElem x = true) ∨
      ∃ i, v = MetaValue.ent i)
    (hl' : ∀ x ∈ l', isEntElem x = true) :
    metaListBranch k v l' =
      (let existingId := (metaIdsList v).dedup
       let updatedId := (l'.map fun x => x.idOf.getD "").dedup
       let toAdd := updatedId.filter fun i => !(existingId.contains i)
       let toRemove := existingId.filter fun i => !(updatedId.contains i)
       if (toAdd ++ toRemove).isEmpty then .ok []
       else if !toAdd.isEmpty && !toRemove.isEmpty then
         .ok [⟨.meta k, .update, Option.some (.pStrSet existingId.toFinset),
               Option.some (.pStrSet updatedId.toFinset)⟩]
       else if !toAdd.isEmpty then
         .ok [⟨.meta k, .add, Option.none, Option.some (.pStrList toAdd)⟩]
       else
         .ok [⟨.meta k, .delete, Option.some (.pStrList toRemove),
               Option.none⟩]) := by
  unfold metaListBranch
  rw [metaExistingIds_eq hv, exceptBindOk, exMapM_getId_of_ents hl',
    exceptBindOk]

theorem isEmpty_false_of_ne_nil {α : Type} {l : List α} (h : l ≠ []) :
    l.isEmpty = false := by
  cases l with
  | nil => exact absurd rfl h
  | cons a t => rfl

theorem isEmpty_append_false_left {α : Type} {l r : List α}
    (h : l.isEmpty = false) : (l ++ r).isEmpty = false := by
  cases l with
  | nil => cases h
  | cons a t => rfl

theorem isEmpty_append_false_right {α : Type} {l r : List α}
    (h : r.isEmpty = false) : (l ++ r).isEmpty = false := by
  cases l with
  | nil => simpa using h
  | cons a t => rfl

theorem diffList_toFinset (u e : List String) :
    ((u.dedup.filter fun i => !(e.dedup.contains i)).toFinset) =
      u.toFinset \ e.toFinset := by
  ext i
  simp [List.mem_filter, List.mem_dedup, List.elem_iff]

theorem toFinset_eq_empty_iff_nil {l : List String} :
    l.toFinset = ∅ ↔ l = [] := by
  cases l with
  | nil => simp
  | cons a t =>
      simp only [List.toFinset_cons]
      constructor
      · intro h; exact absurd h (Finset.insert_ne_empty a t.toFinset)
      · intro h; cases h

theorem dedup_toFinset (l : List String) :
    l.dedup.toFinset = l.toFinset := by
  ext i
  simp [List.mem_dedup]

theorem diffList_nil_iff (u e : List String) :
    ((u.dedup.filter fun i => !(e.dedup.contains i)) = []) ↔
      (u.toFinset \ e.toFinset = ∅) := by
  rw [← diffList_toFinset u e]
  exact toFinset_eq_empty_iff_nil.symm

theorem metaListBranch_update {k : String} {v : MetaValue}
    {l' : List MetaElem}
    (hv : (∃ l, v = MetaValue.list l ∧ ∀ x ∈ l, isEntElem x = true) ∨
      ∃ i, v = MetaValue.ent i)
    (hl' : ∀ x ∈ l', isEntElem x = true)
    (hUE : (l'.map fun x => x.idOf.getD "").toFinset \
      (metaIdsList v).toFinset ≠ ∅)
    (hEU : (metaIdsList v).toFinset \
      (l'.map fun x => x.idOf.getD "").toFinset ≠ ∅) :
    metaListBranch k v l' =
      .ok [⟨.meta k, .update,
            Option.some (.pStrSet ((metaIdsList v).toFinset)),
            Option.some (.pStrSet ((l'.map fun x =>
              x.idOf.getD "").toFinset))⟩] := by
  have h1 : ((l'.map fun x => x.idOf.getD "").dedup.filter fun i =>
      !((metaIdsList v).dedup.contains i)) ≠ [] :=
    fun hh => hUE ((diffList_nil_iff _ _).mp hh)
  have h2 : ((metaIdsList v).dedup.filter fun i =>
      !((l'.map fun x => x.idOf.getD "").dedup.contains i)) ≠ [] :=
    fun hh => hEU ((diffList_nil_iff _ _).mp hh)
  rw [metaListBranch_eq hv hl']
  dsimp only
  rw [isEmpty_append_false_left (isEmpty_false_of_ne_nil h1),
    isEmpty_false_of_ne_nil h1, isEmpty_false_of_ne_nil h2,
    dedup_toFinset, dedup_toFinset]
  rfl

theorem metaListBranch_add {k : String} {v : MetaValue} {l' : List MetaElem}
    (hv : (∃ l, v = MetaValue.list l ∧ ∀ x ∈ l, isEntElem x = true) ∨
      ∃ i, v = MetaValue.ent i)
    (hl' : ∀ x ∈ l', isEntElem x = true)
    (hUE : (l'.map fun x => x.idOf.getD "").toFinset \
      (metaIdsList v).toFinset ≠ ∅)
    (hEU : (metaIdsList v).toFinset \
      (l'.map fun x => x.idOf.getD "").toFinset = ∅) :
    metaListBranch k v l' =
      .ok [⟨.meta k, .add, Option.none,
            Option.some (.pStrList
              ((l'.map fun x => x.idOf.getD "").dedup.filter fun i =>
                !((metaIdsList v).dedup.contains i)))⟩] := by
  have h1 : ((l'.map fun x => x.idOf.getD "").dedup.filter fun i =>
      !((metaIdsList v).dedup.contains i)) ≠ [] :=
    fun hh => hUE ((diffList_nil_iff _ _).mp hh)
  have h2 : ((metaIdsList v).dedup.filter fun i =>
      !((l'.map fun x => x.idOf.getD "").dedup.contains i)) = [] :=
    (diffList_nil_iff _ _).mpr hEU
  rw [metaListBranch_eq hv hl']
  dsimp only
  rw [h2, isEmpty_append_false_left (isEmpty_false_of_ne_nil h1),
    isEmpty_false_of_ne_nil h1]
  rfl

theorem metaListBranch_delete {k : String} {v : MetaValue}
    {l' : List MetaElem}
    (hv : (∃ l, v = MetaValue.list l ∧ ∀ x ∈ l, isEntElem x = true) ∨
      ∃ i, v = MetaValue.ent i)
    (hl' : ∀ x ∈ l', isEntElem x = true)
    (hUE : (l'.map fun x => x.idOf.getD "").toFinset \
      (metaIdsList v).toFinset = ∅)
    (hEU : (metaIdsList v).toFinset \
      (l'.map fun x => x.idOf.getD "").toFinset ≠ ∅) :
    metaListBranch k v l' =
      .ok [⟨.meta k, .delete,
            Option.some (.pStrList
              ((metaIdsList v).dedup.filter fun i =>
                !((l'.map fun x => x.idOf.getD "").dedup.contains i))),
            Option.none⟩] := by
  have h1 : ((l'.map fun x => x.idOf.getD "").dedup.filter fun i =>
      !((metaIdsList v).dedup.contains i)) = [] :=
    (diffList_nil_iff _ _).mpr hUE
  have h2 : ((metaIdsList v).dedup.filter fun i =>
      !((l'.map fun x => x.idOf.getD "").dedup.contains i)) ≠ [] :=
    fun hh => hEU ((diffList_nil_iff _ _).mp hh)
  rw [metaListBranch_eq hv hl']
  dsimp only
  rw [h1, isEmpty_append_false_right (isEmpty_false_of_ne_nil h2),
    isEmpty_false_of_ne_nil h2]
  rfl

theorem metaListBranch_skip {k : String} {v : MetaValue} {l' : List MetaElem}
    (hv : (∃ l, v = MetaValue.list l ∧ ∀ x ∈ l, isEntElem x = true) ∨
      ∃ i, v = MetaValue.ent i)
    (hl' : ∀ x ∈ l', isEntElem x = true)
    (hEq : (metaIdsList v).toFinset =
      (l'.map fun x => x.idOf.getD "").toFinset) :
    metaListBranch k v l' = .ok [] := by
  have h1 : ((l'.map fun x => x.idOf.getD "").dedup.filter fun i =>
      !((metaIdsList v).dedup.contains i)) = [] :=
    (diffList_nil_iff _ _).mpr (by rw [← hEq, Finset.sdiff_self])
  have h2 : ((metaIdsList v).dedup.filter fun i =>
      !((l'.map fun x => x.idOf.getD "").dedup.contains i)) = [] :=
    (diffList_nil_iff _ _).mpr (by rw [hEq, Finset.sdiff_self])
  rw [metaListBranch_eq hv hl']
  dsimp only
  rw [h1, h2]
  rfl

theorem metaDeleteData_long_list {k : String} {l : List MetaElem}
    (hlen : 2 ≤ l.length) (hl : ∀ x ∈ l, isEntElem x = true) :
    metaDeleteData k (MetaValue.list l) =
      .ok [⟨Attr.meta k, .delete,
            Option.some (.pStrList (l.map fun x => x.idOf.getD "")),
            Option.none⟩] := by
  simp only [metaDeleteData]
  rw [exMapM_getId_of_ents hl, exceptBindOk]
  cases l with
  | nil => simp at hlen
  | cons a t => cases t with
    | nil => simp at hlen
    | cons b u => rfl

theorem handleNew_long_list {k : String} {l : List MetaElem}
    (hlen : 2 ≤ l.length) (hl : ∀ x ∈ l, isEntElem x = true) :
    handleNew k (MetaValue.list l) =
      .ok [⟨Attr.meta k, .add, Option.none,
            Option.some (.pStrList (l.map fun x => x.idOf.getD ""))⟩] := by
  simp only [handleNew]
  rw [exMapM_getId_of_ents hl, exceptBindOk]
  cases l with
  | nil => simp at hlen
  | cons a t => cases t with
    | nil => simp at hlen
    | cons b u => rfl

/-- Claim C8: the delete pass dispatches on the existing value's type and
the changed handling on the updated value's type, with the exact value
shaping: a deleted scalar passes the raw value, a deleted entity list passes
the single id (length 1) or the full id list (otherwise) and skips an empty
list, a deleted single entity passes `value.id`; the new-key ADD pass
applies the same cardinality shaping to `new_value`; and the asymmetry is
preserved: an existing list with an updated scalar goes through the scalar
UPDATE (raw list object as `old_value`), an existing single entity with an
updated list goes through the set-difference branch with the entity coerced
to a one-element id set. -/
theorem claim8_shaping_and_asymmetry :
    (∀ (up : List (String × MetaValue)) (k : String) (v : MetaValue),
      (alookup up k = Option.none ∨
        alookup up k = Option.some MetaValue.mvNone) →
      handleExisting up k v = metaDeleteData k v) ∧
    (∀ k s, metaDeleteData k (MetaValue.str s) =
      .ok [⟨Attr.meta k, .delete, Option.some (.pStr s), Option.none⟩]) ∧
    (∀ k n, metaDeleteData k (MetaValue.int n) =
      .ok [⟨Attr.meta k, .delete, Option.some (.pInt n), Option.none⟩]) ∧
    (∀ k d, metaDeleteData k (MetaValue.flt d) =
      .ok [⟨Attr.meta k, .delete, Option.some (.pFlt d), Option.none⟩]) ∧
    (∀ k, metaDeleteData k (MetaValue.list []) = .ok []) ∧
    (∀ k i, metaDeleteData k (MetaValue.list [.ent i]) =
      .ok [⟨Attr.meta k, .delete, Option.some (.pStr i), Option.none⟩]) ∧
    (∀ k (l : List MetaElem), 2 ≤ l.length →
      (∀ x ∈ l, isEntElem x = true) →
      metaDeleteData k (MetaValue.list l) =
        .ok [⟨Attr.meta k, .delete,
              Option.some (.pStrList (l.map fun x => x.idOf.getD "")),
              Option.none⟩]) ∧
    (∀ k i, metaDeleteData k (MetaValue.ent i) =
      .ok [⟨Attr.meta k, .delete, Option.some (.pStr i), Option.none⟩]) ∧
    (∀ k s, handleNew k (MetaValue.str s) =
      .ok [⟨Attr.meta k, .add, Option.none, Option.some (.pStr s)⟩]) ∧
    (∀ k, handleNew k (MetaValue.list []) = .ok []) ∧
    (∀ k i, handleNew k (MetaValue.list [.ent i]) =
      .ok [⟨Attr.meta k, .add, Option.none, Option.some (.pStr i)⟩]) ∧
    (∀ k (l : List MetaElem), 2 ≤ l.length →
      (∀ x ∈ l, isEntElem x = true) →
      handleNew k (MetaValue.list l) =
        .ok [⟨Attr.meta k, .add, Option.none,
              Option.some (.pStrList (l.map fun x => x.idOf.getD ""))⟩]) ∧
    (∀ k i, handleNew k (MetaValue.ent i) =
      .ok [⟨Attr.meta k, .add, Option.none, Option.some (.pStr i)⟩]) ∧
    (∀ k (l : List MetaElem) (s : String),
      mvEq (MetaValue.list l) (MetaValue.str s) = false ∧
      metaChangedDispatch k (MetaValue.list l) (MetaValue.str s) =
        .ok [⟨Attr.meta k, .update, Option.some (.pEntList l),
              Option.some (.pStr s)⟩]) ∧
    (∀ k i (l' : List MetaElem),
      metaChangedDispatch k (MetaValue.ent i) (MetaValue.list l') =
        metaListBranch k (MetaValue.ent i) l' ∧
      metaExistingIds (MetaValue.ent i) = .ok [i]) := by
  refine ⟨?_, fun k s => rfl, fun k n => rfl, fun k d => rfl, fun k => rfl,
    fun k i => rfl, fun k l h1 h2 => metaDeleteData_long_list h1 h2,
    fun k i => rfl, fun k s => rfl, fun k => rfl, fun k i => rfl,
    fun k l h1 h2 => handleNew_long_list h1 h2, fun k i => rfl,
    fun k l s => ⟨rfl, rfl⟩, fun k i l' => ⟨rfl, rfl⟩⟩
  intro up k v h
  unfold handleExisting
  rcases h with h | h
  · rw [h]
  · rw [h]

/-- Witness for `claim8_shaping_and_asymmetry` at concrete inputs. -/
theorem claim8_witness :
    handleExisting [(("k"), MetaValue.mvNone)] ("k")
        (MetaValue.list [.ent ("E1"), .ent ("E2")]) =
      metaDeleteData ("k") (MetaValue.list [.ent ("E1"), .ent ("E2")]) ∧
    metaDeleteData ("k") (MetaValue.list [.ent ("E1"), .ent ("E2")]) =
      .ok [⟨Attr.meta ("k"), .delete,
            Option.some (.pStrList [("E1"), ("E2")]), Option.none⟩] ∧
    handleNew ("k") (MetaValue.list [.ent ("E1"), .ent ("E2")]) =
      .ok [⟨Attr.meta ("k"), .add, Option.none,
            Option.some (.pStrList [("E1"), ("E2")])⟩] :=
  ⟨claim8_shaping_and_asymmetry.1 _ _ _ (Or.inr (by decide)),
   claim8_shaping_and_asymmetry.2.2.2.2.2.2.1 ("k")
     [.ent ("E1"), .ent ("E2")] (by decide) (by decide),
   claim8_shaping_and_asymmetry.2.2.2.2.2.2.2.2.2.2.2.1 ("k")
     [.ent ("E1"), .ent ("E2")] (by decide) (by decide)⟩

/-- Claim C3: for a metadata key present in both mappings whose updated
value is a list of linked entities differing from the existing value, with
`E` the id set of the existing value (an entity coerced to a singleton) and
`U` the id set of the updated list: both differences non-empty gives exactly
one UPDATE datum carrying the full sets; only additions gives exactly one
ADD carrying the added ids as a list; only removals gives exactly one DELETE
carrying the removed ids as a list; equal sets give no datum for that
key. -/
theorem claim3_linked_entity_list_delta :
    ∀ (ex up : List (String × MetaValue)) (k : String) (v : MetaValue)
      (l' : List MetaElem) (L : List PatchDatum),
      (ex.map Prod.fst).Nodup → (k, v) ∈ ex →
      alookup up k = Option.some (MetaValue.list l') →
      (∀ x ∈ l', isEntElem x = true) →
      ((∃ l, v = MetaValue.list l ∧ ∀ x ∈ l, isEntElem x = true) ∨
        ∃ i, v = MetaValue.ent i) →
      mvEq v (MetaValue.list l') = false →
      metaDiff ex up = .ok L →
      (let E := (metaIdsList v).toFinset
       let U := ((l'.map fun x => x.idOf.getD "")).toFinset
       let toAdd := (l'.map fun x => x.idOf.getD "").dedup.filter fun i =>
         !((metaIdsList v).dedup.contains i)
       let toRemove := (metaIdsList v).dedup.filter fun i =>
         !((l'.map fun x => x.idOf.getD "").dedup.contains i)
       ((U \ E ≠ ∅ ∧ E \ U ≠ ∅) →
         L.filter (fun d => d.attr == Attr.meta k) =
           [⟨.meta k, .update, Option.some (.pStrSet E),
             Option.some (.pStrSet U)⟩]) ∧
       ((U \ E ≠ ∅ ∧ E \ U = ∅) →
         L.filter (fun d => d.attr == Attr.meta k) =
           [⟨.meta k, .add, Option.none, Option.some (.pStrList toAdd)⟩] ∧
           toAdd.toFinset = U \ E) ∧
       ((U \ E = ∅ ∧ E \ U ≠ ∅) →
         L.filter (fun d => d.attr == Attr.meta k) =
           [⟨.meta k, .delete, Option.some (.pStrList toRemove),
             Option.none⟩] ∧
           toRemove.toFinset = E \ U) ∧
       (E = U →
         L.filter (fun d => d.attr == Attr.meta k) = [])) := by
  intro ex up k v l' L hnd hmem hup hl' hv hne hok
  have hdisp : handleExisting up k v = metaListBranch k v l' := by
    unfold handleExisting
    rw [hup]
    show metaChangedData k v (MetaValue.list l') = _
    unfold metaChangedData
    rw [hne]
    rfl
  dsimp only
  refine ⟨fun h12 => ?_, fun h12 => ⟨?_, ?_⟩, fun h12 => ⟨?_, ?_⟩,
    fun hEq => ?_⟩
  · exact metaDiff_filter_key hnd hmem hok
      (hdisp.trans (metaListBranch_update hv hl' h12.1 h12.2))
  · exact metaDiff_filter_key hnd hmem hok
      (hdisp.trans (metaListBranch_add hv hl' h12.1 h12.2))
  · exact diffList_toFinset _ _
  · exact metaDiff_filter_key hnd hmem hok
      (hdisp.trans (metaListBranch_delete hv hl' h12.1 h12.2))
  · exact diffList_toFinset _ _
  · exact metaDiff_filter_key hnd hmem hok
      (hdisp.trans (metaListBranch_skip hv hl' hEq))

/-- Witness for `claim3_linked_entity_list_delta` on the spec's mixed
example. -/
theorem claim3_witness :
    metaDiff exC3 upC3 = .ok [c3datum] ∧
    ([c3datum].filter fun d => d.attr == Attr.meta ("t")) = [c3datum] := by
  have hok : metaDiff exC3 upC3 = .ok [c3datum] := by decide
  refine ⟨hok, ?_⟩
  have h1 := (claim3_linked_entity_list_delta exC3 upC3 ("t")
    (MetaValue.list [.ent ("E1"), .ent ("E2")]) [.ent ("E2"), .ent ("E3")]
    [c3datum] (by decide) (by decide) (by decide) (by decide)
    (Or.inl ⟨[.ent ("E1"), .ent ("E2")], rfl, by decide⟩) (by decide) hok).1
  exact h1 ⟨by decide, by decide⟩

/-- Claim C5, counterexample: an item present in both lists with *unchanged*
text still contributes an update entry — `generate_enum_patches` has no
text-change filter, contradicting the claim that such an item contributes no
entry. -/
theorem claim5_counterexample :
    generateEnumPatches [⟨Option.some ("1"), ("A"), Option.none⟩]
        [⟨Option.some ("1"), ("A"), Option.none⟩] =
      [EnumPatch.upd (Option.some ("1")) ("A")] ∧
    generateEnumPatches [⟨Option.some ("1"), ("A"), Option.none⟩]
        [⟨Option.some ("1"), ("A"), Option.none⟩] ≠ [] :=
  ⟨by decide, by decide⟩

/-- Claim C4 (amended): when both snapshots carry an inventory value, they
differ, and the default-context delta computation succeeds (`pyLotDelta`:
`Decimal(str(·))` subtraction then 14-place quantization, which raises
`InvalidOperation` past the 28-digit context precision), the lots payload
is some list of non-`inventoryOnHand` datums followed by exactly one
`inventoryOnHand` UPDATE whose `old_value` is the Python `str` of the
existing float (scientific notation outside `[1e-4, 1e16)`) and whose
`new_value` is the quantized delta rendered fixed-point; on the spec's
example (10.0 → 10.00000000000001) the delta is `1e-14` and its rendering
"0.00000000000001".  (The claim as written also covers an existing `None`
inventory — where `Decimal(str(None))` raises — and deltas past the
context precision — where `quantize` raises; see the counterexample.) -/
theorem claim4_lot_inventory_delta :
    (∀ (existing updated : Lot) (e u δ : DecNum) (s : Bool)
      (base : List PatchDatum),
      existing.inventory_on_hand = Option.some e →
      updated.inventory_on_hand = Option.some u →
      decValEq u e = false →
      pyLotDelta u e = .ok (s, δ) →
      genData lotsUpdatable lotsAlias true false (lotToRes existing)
        (lotToRes updated) = .ok base →
      ∃ rest, generateLotsPatchPayload existing updated =
        .ok (rest ++ [⟨Attr.plain ("inventoryOnHand"), .update,
          Option.some (.pStr (pyFloatStr e)),
          Option.some (.pStr (pyDecRender s δ))⟩]) ∧
        ∀ d ∈ rest, d.attr ≠ Attr.plain ("inventoryOnHand")) ∧
    (pyLotDelta ⟨1000000000000001, 14⟩ ⟨100, 1⟩ = .ok (false, ⟨1, 14⟩) ∧
     pyDecRender false ⟨1, 14⟩ = ("0.00000000000001")) := by
  constructor
  · intro existing updated e u δ s base he hu hne hq hbase
    have hred : generateLotsPatchPayload existing updated =
        Bind.bind (pyLotDelta u e) (fun delta =>
          Bind.bind (Except.ok ((base.filter fun d =>
              !(d.attr == Attr.plain ("inventoryOnHand"))) ++
            [⟨Attr.plain ("inventoryOnHand"), .update,
              Option.some (.pStr (pyFloatStr e)),
              Option.some (.pStr (pyDecRender delta.1 delta.2))⟩]))
            (fun y => exMapM y slFix)) := by
      unfold generateLotsPatchPayload
      rw [hbase, exceptBindOk]
      dsimp only
      rw [hu, he]
      have hc : ((Option.some u).isSome &&
          iohChanged (Option.some u) (Option.some e)) = true := by
        simp [iohChanged, hne]
      rw [hc]
      rfl
    rw [hq, exceptBindOk] at hred
    dsimp only at hred
    rw [exceptBindOk] at hred
    rw [exMapM_append] at hred
    have hpoint : ∀ d ∈ base.filter fun d =>
        !(d.attr == Attr.plain ("inventoryOnHand")),
        ∃ d', slFix d = .ok d' ∧
          d'.attr ≠ Attr.plain ("inventoryOnHand") := by
      intro d hdf
      have hdb : d ∈ base := List.mem_of_mem_filter hdf
      have hpred := List.of_mem_filter hdf
      have hdne : d.attr ≠ Attr.plain ("inventoryOnHand") := by
        intro hcontra
        rw [hcontra] at hpred
        simp at hpred
      obtain ⟨d', hd', hor⟩ := slFix_ok (lots_base_shape hbase d hdb)
      refine ⟨d', hd', ?_⟩
      rcases hor with h1 | h1
      · rw [h1]
        exact hdne
      · rw [h1]
        decide
    obtain ⟨rest, hrest, hP⟩ := exMapM_prop hpoint
    refine ⟨rest, ?_, hP⟩
    rw [hred, hrest, exceptBindOk,
      show exMapM [⟨Attr.plain ("inventoryOnHand"), .update,
        Option.some (.pStr (pyFloatStr e)),
        Option.some (.pStr (pyDecRender s δ))⟩] slFix =
        .ok [⟨Attr.plain ("inventoryOnHand"), .update,
        Option.some (.pStr (pyFloatStr e)),
        Option.some (.pStr (pyDecRender s δ))⟩] from rfl,
      exceptBindOk]
  · exact ⟨by decide, rfl⟩

/-- Counterexample to claim C4 as written: with `existing.inventory_on_hand`
None and a changed non-None updated value, `Decimal(str(None))` raises; and
with existing 0.0 and updated 1e15, the 14-place quantization of the delta
needs 30 coefficient digits, so `Decimal.quantize` raises `InvalidOperation`
under the default 28-digit context — in both cases no payload with a single
delta datum is produced. -/
theorem claim4_counterexample :
    generateLotsPatchPayload lotC4None upLotC4 = .error () ∧
    generateLotsPatchPayload { inventory_on_hand := Option.some ⟨0, 0⟩ }
      { inventory_on_hand := Option.some ⟨1000000000000000, 0⟩ } =
      .error () :=
  ⟨by decide, by decide⟩

/-- Witness for `claim4_lot_inventory_delta` on concrete lots (10.0 → 15.0,
storage location moved). -/
theorem claim4_witness :
    (exLotC4.inventory_on_hand = Option.some (⟨100, 1⟩ : DecNum) ∧
     upLotC4.inventory_on_hand = Option.some (⟨150, 1⟩ : DecNum) ∧
     decValEq ⟨150, 1⟩ ⟨100, 1⟩ = false ∧
     pyLotDelta ⟨150, 1⟩ ⟨100, 1⟩ = .ok (false, ⟨500000000000000, 14⟩) ∧
     genData lotsUpdatable lotsAlias true false (lotToRes exLotC4)
       (lotToRes upLotC4) =
       .ok [⟨Attr.plain ("StorageLocation"), .update,
             Option.some (.pEnt ("SL1")), Option.some (.pEnt ("SL2"))⟩,
            ⟨Attr.plain ("inventoryOnHand"), .update,
             Option.some (.pFlt ⟨100, 1⟩), Option.some (.pFlt ⟨150, 1⟩)⟩]) ∧
    (∃ rest, generateLotsPatchPayload exLotC4 upLotC4 =
      .ok (rest ++ [⟨Attr.plain ("inventoryOnHand"), .update,
        Option.some (.pStr (pyFloatStr ⟨100, 1⟩)),
        Option.some (.pStr (pyDecRender false ⟨500000000000000, 14⟩))⟩]) ∧
      ∀ d ∈ rest, d.attr ≠ Attr.plain ("inventoryOnHand")) :=
  ⟨⟨rfl, rfl, by decide, by decide, by decide⟩,
   claim4_lot_inventory_delta.1 exLotC4 upLotC4 ⟨100, 1⟩ ⟨150, 1⟩
     ⟨500000000000000, 14⟩ false
     [⟨Attr.plain ("StorageLocation"), .update,
       Option.some (.pEnt ("SL1")), Option.some (.pEnt ("SL2"))⟩,
      ⟨Attr.plain ("inventoryOnHand"), .update,
       Option.some (.pFlt ⟨100, 1⟩), Option.some (.pFlt ⟨150, 1⟩)⟩]
     rfl rfl (by decide) (by decide) (by decide)⟩

/-- Claim C9 (amended): for parameter lists with unique, non-falsy
sequences where the updated list replaces exactly one parameter's non-None
value by a different value and no parameter's validation head is enum-typed,
`generate_parameter_patches` returns exactly one patch — an UPDATE on
attribute "value" with `rowId` the shared sequence, `old_value` the existing
value and `new_value` the updated one — no new parameters and no enum
patches.  (As written, the claim also covers a None existing value — where
the code emits an ADD instead — and parameters carrying server-stripped
enum validations — where the code raises; see the counterexample.) -/
theorem claim9_single_value_roundtrip :
    ∀ (l1 l2 : List ParameterValue) (p0 : ParameterValue) (v v' : PValue)
      (s0 pname : String),
      ((l1 ++ p0 :: l2).map fun x => x.sequence).Nodup →
      (∀ p ∈ l1 ++ p0 :: l2, seqFalsy p.sequence = false) →
      (∀ p ∈ l1 ++ p0 :: l2, enumGuard p.validation = false) →
      p0.sequence = Option.some s0 →
      p0.value = Option.some v →
      v ≠ v' →
      generateParameterPatches (l1 ++ p0 :: l2)
          (l1 ++ { p0 with value := Option.some v' } :: l2) pname =
        .ok ([⟨.update, ("value"), Option.some (.v v), Option.some (.v v'),
              Option.some s0⟩], [], []) := by
  intro l1 l2 p0 v v' s0 pname hnd hseq hguard hs0 hv hne
  have hp0 : p0 ∈ l1 ++ p0 :: l2 :=
    List.mem_append.mpr (Or.inr (List.mem_cons_self _ _))
  have hmemup : ∀ x ∈ l1 ++ { p0 with value := Option.some v' } :: l2,
      ((l1 ++ p0 :: l2).map fun y => y.sequence).contains x.sequence =
        true := by
    intro x hx
    apply contains_of_mem
    have hm : x.sequence ∈
        (l1 ++ { p0 with value := Option.some v' } :: l2).map
          fun y => y.sequence := List.mem_map_of_mem _ hx
    simpa using hm
  have hmemip : ∀ x ∈ l1 ++ p0 :: l2,
      ((l1 ++ { p0 with value := Option.some v' } :: l2).map
        fun y => y.sequence).contains x.sequence = true := by
    intro x hx
    apply contains_of_mem
    have hm : x.sequence ∈ (l1 ++ p0 :: l2).map fun y => y.sequence :=
      List.mem_map_of_mem _ hx
    simpa using hm
  have hsequp : ∀ x ∈ l1 ++ { p0 with value := Option.some v' } :: l2,
      seqFalsy x.sequence = false := by
    intro x hx
    rcases List.mem_append.mp hx with h1 | h1
    · exact hseq x (List.mem_append.mpr (Or.inl h1))
    · rcases List.mem_cons.mp h1 with rfl | h2
      · exact hseq p0 hp0
      · exact hseq x (List.mem_append.mpr (Or.inr (List.mem_cons_of_mem _ h2)))
  have hnew : ((l1 ++ { p0 with value := Option.some v' } :: l2).filter
      fun x => !(((l1 ++ p0 :: l2).map fun y => y.sequence).contains
        x.sequence) || seqFalsy x.sequence) = [] := by
    apply List.filter_eq_nil_iff.mpr
    intro x hx
    rw [hmemup x hx, hsequp x hx]
    decide
  have hdel : ((l1 ++ p0 :: l2).filter fun x =>
      !(((l1 ++ { p0 with value := Option.some v' } :: l2).map
        fun y => y.sequence).contains x.sequence)) = [] := by
    apply List.filter_eq_nil_iff.mpr
    intro x hx
    rw [hmemip x hx]
    decide
  have hmatch : ((l1 ++ { p0 with value := Option.some v' } :: l2).filter
      fun x => ((l1 ++ p0 :: l2).map fun y => y.sequence).contains
        x.sequence) = l1 ++ { p0 with value := Option.some v' } :: l2 :=
    List.filter_eq_self.mpr fun x hx => hmemup x hx
  have hfind0 : ((l1 ++ p0 :: l2).find? fun y => y.sequence ==
      ({ p0 with value := Option.some v' } : ParameterValue).sequence) =
      Option.some p0 := find?_seq_of_mem_nodup hnd hp0
  have hhq0 : handleMatchedParam (l1 ++ p0 :: l2)
      { p0 with value := Option.some v' } =
      .ok ([⟨.update, ("value"), Option.some (.v v), Option.some (.v v'),
            Option.some s0⟩], []) := by
    have h := handleMatchedParam_value hfind0 rfl rfl hv rfl hne
      (hguard p0 hp0)
    rw [hs0]
    rw [hs0] at h
    exact h
  have hunch : ∀ x, x ∈ l1 ∨ x ∈ l2 →
      handleMatchedParam (l1 ++ p0 :: l2) x = .ok ([], []) := by
    intro x hx
    have hxm : x ∈ l1 ++ p0 :: l2 := by
      rcases hx with h1 | h1
      · exact List.mem_append.mpr (Or.inl h1)
      · exact List.mem_append.mpr (Or.inr (List.mem_cons_of_mem _ h1))
    exact handleMatchedParam_unchanged (find?_seq_of_mem_nodup hnd hxm)
      (hguard x hxm)
  have hpl1 : processMatchedParams (l1 ++ p0 :: l2) l1 = .ok ([], []) :=
    processMatchedParams_all_nil fun q hq => hunch q (Or.inl hq)
  have hpl2 : processMatchedParams (l1 ++ p0 :: l2) l2 = .ok ([], []) :=
    processMatchedParams_all_nil fun q hq => hunch q (Or.inr hq)
  have hpmp : processMatchedParams (l1 ++ p0 :: l2)
      (l1 ++ { p0 with value := Option.some v' } :: l2) =
      .ok ([⟨.update, ("value"), Option.some (.v v), Option.some (.v v'),
            Option.some s0⟩], []) := by
    rw [processMatchedParams_append, hpl1, exceptBindOk]
    simp only [processMatchedParams]
    rw [hhq0]
    simp only [exceptBindOk]
    rw [hpl2]
    simp only [exceptBindOk]
    rfl
  unfold generateParameterPatches
  dsimp only
  rw [hnew, hdel, hmatch, hpmp, exceptBindOk]
  rfl

/-- Counterexample to claim C9 as written: (a) a single matched parameter
whose value goes from None to a value yields an ADD datum, not an UPDATE;
(b) if the single changed parameter also carries an enum-typed validation
whose `value` list is None (as server snapshots may), the generator raises
instead of returning any patch set. -/
theorem claim9_counterexample :
    generateParameterPatches
        [{ sequence := Option.some ("1") }]
        [{ sequence := Option.some ("1"),
           value := Option.some (.pStr ("x")) }] ("parameter") =
      .ok ([⟨.add, ("value"), Option.none,
            Option.some (.v (.pStr ("x"))), Option.some ("1")⟩], [], []) ∧
    generateParameterPatches
        [{ sequence := Option.some ("1"),
           value := Option.some (.pStr ("a")),
           validation := Option.some [⟨DataType.enum, Option.none, ("")⟩] }]
        [{ sequence := Option.some ("1"),
           value := Option.some (.pStr ("b")),
           validation := Option.some [⟨DataType.enum, Option.none, ("")⟩] }]
        ("parameter") = .error () :=
  ⟨by decide, by decide⟩

/-- Witness for `claim9_single_value_roundtrip` on a one-parameter template
(sequence 1, value "a" → "b"). -/
theorem claim9_witness :
    (((([] : List ParameterValue) ++ p0c9 :: []).map
        fun x => x.sequence).Nodup ∧
     (∀ p ∈ ([] : List ParameterValue) ++ p0c9 :: [],
        seqFalsy p.sequence = false) ∧
     (∀ p ∈ ([] : List ParameterValue) ++ p0c9 :: [],
        enumGuard p.validation = false) ∧
     p0c9.sequence = Option.some ("1") ∧
     p0c9.value = Option.some (.pStr ("a")) ∧
     PValue.pStr ("a") ≠ PValue.pStr ("b")) ∧
    generateParameterPatches (([] : List ParameterValue) ++ p0c9 :: [])
        (([] : List ParameterValue) ++
          { p0c9 with value := Option.some (.pStr ("b")) } :: [])
        ("parameter") =
      .ok ([⟨.update, ("value"), Option.some (.v (.pStr ("a"))),
            Option.some (.v (.pStr ("b"))), Option.some ("1")⟩], [], []) :=
  ⟨⟨by decide, by decide, by decide, rfl, rfl, by decide⟩,
   claim9_single_value_roundtrip [] [] p0c9 (.pStr ("a")) (.pStr ("b"))
     ("1") ("parameter") (by decide) (by decide) (by decide) rfl rfl
     (by decide)⟩

/-- Claim C10: deletions are encoded differently on the two sides — when at
least one initial parameter's sequence is absent from the updated list,
`generate_parameter_patches` puts exactly one DELETE datum first, carrying
the list of all deleted sequences as `old_value` (every further datum is a
unit/value/validation child patch); `generate_data_column_patches` instead
prefixes one DELETE datum per deleted column, each carrying that single
column's sequence (every further entry is a grouped datacolumn action or a
unit patch). -/
theorem claim10_delete_encoding :
    (∀ (initial updated : List ParameterValue) (pname : String)
      (patches : List PGPatchDatum) (news : List ParameterValue)
      (es : List (Option String × List EnumPatch)),
      (initial.filter fun x =>
        !((updated.map fun y => y.sequence).contains x.sequence)) ≠ [] →
      generateParameterPatches initial updated pname =
        .ok (patches, news, es) →
      ∃ rest, patches =
        ⟨.delete, pname, Option.some (.seqList ((initial.filter fun x =>
          !((updated.map fun y => y.sequence).contains x.sequence)).map
            fun x => x.sequence)), Option.none, Option.none⟩ :: rest ∧
        ∀ d ∈ rest, d.attr = ("unitId") ∨ d.attr = ("value") ∨
          d.attr = ("validation")) ∧
    (∀ (initial updated : List DataColumnValue) (patches : List DCPatch)
      (news : List DataColumnValue)
      (es : List (Option String × List EnumPatch)),
      generateDataColumnPatches initial updated = .ok (patches, news, es) →
      ∃ rest, patches =
        ((initial.filter fun x =>
          !((updated.map fun y => y.sequence).contains x.sequence)).map
          fun dc => DCPatch.dt ⟨.delete, ("datacolumn"),
            Option.some (.seq dc.sequence), Option.none, Option.none⟩) ++
          rest ∧
        ∀ d ∈ rest, (∃ g, d = DCPatch.general g) ∨
          (∃ t, d = DCPatch.dt t ∧ t.attr = ("unit"))) := by
  constructor
  · intro initial updated pname patches news es hne hgen
    unfold generateParameterPatches at hgen
    dsimp only at hgen
    cases hp : processMatchedParams initial (updated.filter fun x =>
        (initial.map fun y => y.sequence).contains x.sequence) with
    | error e => cases e; rw [hp, exceptBindErr] at hgen; cases hgen
    | ok r =>
        obtain ⟨ps1, es1⟩ := r
        rw [hp] at hgen
        simp only [exceptBindOk] at hgen
        rw [isEmpty_false_of_ne_nil hne] at hgen
        have h3 := Except.ok.inj hgen
        injection h3 with hpat h4
        refine ⟨ps1, ?_, ?_⟩
        · rw [← hpat]
          rfl
        · exact processMatchedParams_attrs hp
  · intro initial updated patches news es hgen
    unfold generateDataColumnPatches at hgen
    dsimp only at hgen
    cases hp : processMatchedColumns initial (updated.filter fun x =>
        (initial.map fun y => y.sequence).contains x.sequence) with
    | error e => cases e; rw [hp, exceptBindErr] at hgen; cases hgen
    | ok r =>
        obtain ⟨ps1, es1⟩ := r
        rw [hp] at hgen
        simp only [exceptBindOk] at hgen
        have h3 := Except.ok.inj hgen
        injection h3 with hpat h4
        refine ⟨ps1, ?_, ?_⟩
        · rw [← hpat]
        · exact processMatchedColumns_shape hp

/-- Witness for `claim10_delete_encoding`: a one-parameter and a one-column
template each diffed against an empty updated list. -/
theorem claim10_witness :
    (([pC10].filter fun x =>
        !((([] : List ParameterValue).map fun y => y.sequence).contains
          x.sequence)) ≠ [] ∧
      generateParameterPatches [pC10] [] ("parameter") =
        .ok ([⟨.delete, ("parameter"),
          Option.some (.seqList [Option.some ("1")]),
          Option.none, Option.none⟩], [], []) ∧
      generateDataColumnPatches [cC10] [] =
        .ok ([.dt ⟨.delete, ("datacolumn"),
          Option.some (.seq (Option.some ("2"))),
          Option.none, Option.none⟩], [], [])) ∧
    (∃ rest, ([⟨.delete, ("parameter"),
        Option.some (.seqList [Option.some ("1")]),
        Option.none, Option.none⟩] : List PGPatchDatum) =
        ⟨.delete, ("parameter"), Option.some (.seqList (([pC10].filter
          fun x => !((([] : List ParameterValue).map
            fun y => y.sequence).contains x.sequence)).map
              fun x => x.sequence)), Option.none, Option.none⟩ :: rest ∧
      ∀ d ∈ rest, d.attr = ("unitId") ∨ d.attr = ("value") ∨
        d.attr = ("validation")) ∧
    (∃ rest, ([.dt ⟨.delete, ("datacolumn"),
        Option.some (.seq (Option.some ("2"))),
        Option.none, Option.none⟩] : List DCPatch) =
        (([cC10].filter fun x => !((([] : List DataColumnValue).map
          fun y => y.sequence).contains x.sequence)).map
          fun dc => DCPatch.dt ⟨.delete, ("datacolumn"),
            Option.some (.seq dc.sequence), Option.none, Option.none⟩) ++
          rest ∧
      ∀ d ∈ rest, (∃ g, d = DCPatch.general g) ∨
        (∃ t, d = DCPatch.dt t ∧ t.attr = ("unit"))) :=
  ⟨⟨by decide, by decide, by decide⟩,
   claim10_delete_encoding.1 [pC10] [] ("parameter")
     [⟨.delete, ("parameter"), Option.some (.seqList [Option.some ("1")]),
       Option.none, Option.none⟩] [] [] (by decide) (by decide),
   claim10_delete_encoding.2 [cC10] []
     [.dt ⟨.delete, ("datacolumn"), Option.some (.seq (Option.some ("2"))),
       Option.none, Option.none⟩] [] [] (by decide)⟩

end Albert
